import Mathlib

/-!
# Skill-list course tracker: a shallow embedding of `index.js`

The script keeps a list of courses as a JSON text in `localStorage` and shows, for
each course, the percentage done.  This file embeds

* the platform operations the script calls (`parseFloat`, the IEEE-754 binary64
  arithmetic behind `/` and `*`, `Math.round`, `Math.min`, `String.prototype.trim`,
  `JSON.parse`, `JSON.stringify`, `Array.prototype.push` / `splice`), and
* the functions of `index.js` that read or write the stored course list or the active
  index (`getCourses`, `saveCourses`, `calculatePercentage`, `addCourse`,
  `closeUpdateModal`, `saveCompletion`, `openDeleteModal`, `closeDeleteModal`,
  `confirmDelete`),

and proves the properties of the specification about them.  The table that
`renderCourses` writes into the document is not part of the embedded state: rendering
reads the stored list and changes neither the storage nor the active index.
-/

namespace SkillList

/-! ## JavaScript strings -/

/-- A JavaScript string: a sequence of UTF-16 code units. -/
abbrev JSString := List Nat

/-- The code units of a Lean string literal (astral characters become surrogate pairs). -/
def js (s : String) : JSString :=
  s.toList.flatMap fun c =>
    if c.toNat < 0x10000 then [c.toNat]
    else [0xD800 + (c.toNat - 0x10000) / 0x400, 0xDC00 + (c.toNat - 0x10000) % 0x400]

/-- ECMAScript `WhiteSpace` and `LineTerminator` code units (the set stripped by
`String.prototype.trim` and skipped by `parseFloat`). -/
def isWhiteSpace (c : Nat) : Bool :=
  c = 0x09 || c = 0x0A || c = 0x0B || c = 0x0C || c = 0x0D || c = 0x20 || c = 0xA0 ||
  c = 0x1680 || (0x2000 ≤ c && c ≤ 0x200A) || c = 0x2028 || c = 0x2029 || c = 0x202F ||
  c = 0x205F || c = 0x3000 || c = 0xFEFF

/-- The method `String.prototype.trimStart`. -/
def trimStart (s : JSString) : JSString := s.dropWhile isWhiteSpace

/-- The method `String.prototype.trim`. -/
def trim (s : JSString) : JSString := (trimStart (trimStart s).reverse).reverse

/-- Whether `p` is an initial segment of `s`. -/
def startsWith : JSString → JSString → Bool
  | [], _ => true
  | _ :: _, [] => false
  | a :: p, b :: s => a == b && startsWith p s

/-! ## JavaScript numbers (IEEE-754 binary64) -/

/-- A JavaScript Number in sign-magnitude form: `NaN`, `±Infinity`, or a finite value
with sign bit `neg` and magnitude `mag ≥ 0` (so `fin true 0` is `-0`). -/
inductive JSNum where
  | nan
  | inf (neg : Bool)
  | fin (neg : Bool) (mag : ℚ)
  deriving DecidableEq, Repr

namespace JSNum

/-- The mathematical value of a finite number (`NaN` and the infinities read as `0`). -/
def toRat : JSNum → ℚ
  | fin s m => if s then -m else m
  | _ => 0

/-- The predicate `isNaN`. -/
def isNaN : JSNum → Bool
  | nan => true
  | _ => false

/-- Whether the number is finite. -/
def isFinite : JSNum → Bool
  | fin _ _ => true
  | _ => false

/-- The test `x === 0` (both zeros are equal to `0`). -/
def isZero : JSNum → Bool
  | fin _ m => m = 0
  | _ => false

/-- The Number for a non-negative integer literal such as `0` or `100`. -/
def ofNat (n : Nat) : JSNum := fin false n

/-- Round to the nearest integer, ties to the even one. -/
def roundHalfEven (x : ℚ) : ℤ :=
  if x - ⌊x⌋ < 1 / 2 then ⌊x⌋
  else if 1 / 2 < x - ⌊x⌋ then ⌊x⌋ + 1
  else if ⌊x⌋ % 2 = 0 then ⌊x⌋ else ⌊x⌋ + 1

/-- The unit in the last place for a positive magnitude `m`: `2 ^ (e - 52)` where
`2 ^ e ≤ m < 2 ^ (e + 1)`, and `e` is at least `-1022` (subnormal range). -/
def ulp (m : ℚ) : ℚ := (2 : ℚ) ^ (max (Int.log 2 m) (-1022) - 52)

/-- The binary64 value nearest to the exact magnitude `m ≥ 0` (round to nearest, ties to
even), with sign bit `s`; magnitudes that round to `2 ^ 1024` or more overflow to
infinity. -/
def roundMag (s : Bool) (m : ℚ) : JSNum :=
  if m = 0 then fin s 0
  else if (2 : ℚ) ^ (1024 : ℕ) ≤ roundHalfEven (m / ulp m) * ulp m then inf s
  else fin s (roundHalfEven (m / ulp m) * ulp m)

/-- The operator `*` on Numbers (`Number::multiply`). -/
def mul : JSNum → JSNum → JSNum
  | nan, _ => nan
  | _, nan => nan
  | inf s, inf t => inf (xor s t)
  | inf s, fin t n => if n = 0 then nan else inf (xor s t)
  | fin s m, inf t => if m = 0 then nan else inf (xor s t)
  | fin s m, fin t n => roundMag (xor s t) (m * n)

/-- The operator `/` on Numbers (`Number::divide`). -/
def div : JSNum → JSNum → JSNum
  | nan, _ => nan
  | _, nan => nan
  | inf _, inf _ => nan
  | inf s, fin t _ => inf (xor s t)
  | fin s _, inf t => fin (xor s t) 0
  | fin s m, fin t n =>
    if n = 0 then (if m = 0 then nan else inf (xor s t))
    else roundMag (xor s t) (m / n)

/-- The function `Math.round`: the integer nearest to `x`, ties towards `+∞`; the sign
of a zero result is the sign of `x`. -/
def round : JSNum → JSNum
  | nan => nan
  | inf s => inf s
  | fin s m => fin s |((⌊(if s then -m else m) + 1 / 2⌋ : ℤ) : ℚ)|

/-- The function `Math.min` on two arguments (`-0` counts as smaller than `+0`). -/
def min : JSNum → JSNum → JSNum
  | nan, _ => nan
  | _, nan => nan
  | inf true, _ => inf true
  | _, inf true => inf true
  | inf false, y => y
  | x, inf false => x
  | fin s m, fin t n =>
    if (fin s m).toRat < (fin t n).toRat then fin s m
    else if (fin t n).toRat < (fin s m).toRat then fin t n
    else if s then fin s m else fin t n

end JSNum

/-! ## `parseFloat` -/

/-- An ASCII decimal digit. -/
def isDigit (c : Nat) : Bool := 48 ≤ c && c ≤ 57

/-- The number written by a run of decimal digits. -/
def digitsVal (ds : JSString) : Nat := ds.foldl (fun a d => 10 * a + (d - 48)) 0

/-- The longest prefix matching `StrDecimalLiteral`, read off as data. -/
inductive StrDecimal where
  | infinity (neg : Bool)
  | dec (neg : Bool) (mant : Nat) (exp10 : Int)
  deriving DecidableEq, Repr

/-- The exponent part `e[+-]ddd`, if the text starts with a complete one (else `0`). -/
def scanExponent : JSString → Int
  | [] => 0
  | c :: r =>
    if c = 101 ∨ c = 69 then
      match r with
      | 43 :: r1 => (digitsVal (r1.span isDigit).1 : Int)
      | 45 :: r1 => - (digitsVal (r1.span isDigit).1 : Int)
      | _ => (digitsVal (r.span isDigit).1 : Int)
    else 0

/-- Longest prefix of `t` that is a `StrUnsignedDecimalLiteral`, with sign `neg`. -/
def scanUnsigned (neg : Bool) (t : JSString) : Option StrDecimal :=
  if startsWith (js "Infinity") t then some (.infinity neg)
  else
    let ip := (t.span isDigit).1
    let t2 := (t.span isDigit).2
    let fp := match t2 with
      | 46 :: r => (r.span isDigit).1
      | _ => []
    let t3 := match t2 with
      | 46 :: r => (r.span isDigit).2
      | _ => t2
    if ip = [] ∧ fp = [] then none
    else some (.dec neg (digitsVal (ip ++ fp)) (scanExponent t3 - fp.length))

/-- Longest prefix of `t` that is a `StrDecimalLiteral`. -/
def scanDecimal : JSString → Option StrDecimal
  | 43 :: r => scanUnsigned false r
  | 45 :: r => scanUnsigned true r
  | t => scanUnsigned false t

/-- The global function `parseFloat` applied to a string. -/
def parseFloat (s : JSString) : JSNum :=
  match scanDecimal (trimStart s) with
  | none => .nan
  | some (.infinity neg) => .inf neg
  | some (.dec neg mant e) => JSNum.roundMag neg ((mant : ℚ) * (10 : ℚ) ^ e)

/-! ## `calculatePercentage` (index.js, lines 19-30) -/

/-- The function `calculatePercentage(completed, total)`. -/
def calculatePercentage (completed total : JSString) : JSNum :=
  let completedNum := parseFloat completed
  let totalNum := parseFloat total
  if completedNum.isNaN || totalNum.isNaN || totalNum.isZero then JSNum.ofNat 0
  else
    let percentage := JSNum.mul (JSNum.div completedNum totalNum) (JSNum.ofNat 100)
    JSNum.min (JSNum.round percentage) (JSNum.ofNat 100)


/-- The spec's formula `min(round(cn / tn * 100), 100)` in exact arithmetic: the exact
quotient and product, rounded to the nearest integer with halves going up, capped at
`100`. -/
def percentDoneExact (cn tn : ℚ) : ℤ := Min.min ⌊cn / tn * 100 + 1 / 2⌋ 100

/-- The value `x` is an integer `p` with `0 ≤ p ≤ 100`. -/
def IsPercent (x : JSNum) : Prop :=
  x.isFinite = true ∧ ∃ p : ℤ, 0 ≤ p ∧ p ≤ 100 ∧ x.toRat = p

/-- The parsed number is `NaN` (no leading numeric portion) or finite without a minus
sign. -/
def JSNum.unsignedOrNaN : JSNum → Bool
  | .nan => true
  | .fin s _ => !s
  | .inf _ => false

/-- The magnitude of a finite number is non-negative (true of every Number the
operations produce). -/
def JSNum.WellFormed : JSNum → Prop
  | .fin _ m => 0 ≤ m
  | _ => True

/-! ## Number to string (`Number::toString`, radix 10) -/

/-- The decimal digits of a natural number, as code units. -/
def natDigits (n : Nat) : JSString := (Nat.toDigits 10 n).map Char.toNat

/-- Candidates `(n, s)` with `k` significant digits: `10 ^ (k - 1) ≤ s < 10 ^ k` and
`s * 10 ^ (n - k)` is a decimal that reads back as the binary64 magnitude `m`. -/
def decimalCandidates (m : ℚ) (k : Nat) : List (Int × Nat) :=
  [Int.log 10 m + 1, Int.log 10 m + 2].flatMap fun n =>
    [⌊m / (10 : ℚ) ^ (n - k)⌋.toNat, ⌊m / (10 : ℚ) ^ (n - k)⌋.toNat + 1].filterMap fun (s : Nat) =>
      if 10 ^ (k - 1) ≤ s ∧ s < 10 ^ k ∧
          JSNum.roundMag false ((s : ℚ) * (10 : ℚ) ^ (n - k)) = JSNum.fin false m
      then some (n, s) else none

/-- Of the candidates, the one closest to `m` (an even `s` on a tie). -/
def closestCandidate (m : ℚ) (k : Nat) : List (Int × Nat) → Option (Int × Nat)
  | [] => none
  | c :: cs =>
    match closestCandidate m k cs with
    | none => some c
    | some d =>
      if |(c.2 : ℚ) * (10 : ℚ) ^ (c.1 - k) - m| < |(d.2 : ℚ) * (10 : ℚ) ^ (d.1 - k) - m| then
        some c
      else if |(d.2 : ℚ) * (10 : ℚ) ^ (d.1 - k) - m| < |(c.2 : ℚ) * (10 : ℚ) ^ (c.1 - k) - m|
      then some d
      else if c.2 % 2 = 0 then some c else some d

/-- The shortest decimal `(n, k, s)` for a positive binary64 magnitude: `k` is as small as
possible (17 digits always suffice). -/
def shortestDecimal (m : ℚ) : Int × Nat × Nat :=
  match (List.range 17).findSome? fun i =>
      (closestCandidate m (i + 1) (decimalCandidates m (i + 1))).map fun c => (c.1, i + 1, c.2) with
  | some r => r
  | none => (0, 1, 0)

/-- The text of a positive magnitude from its shortest decimal `(n, k, s)`. -/
def formatDecimal (n : Int) (k : Nat) (s : Nat) : JSString :=
  let ds := natDigits s
  if -5 ≤ n ∧ n ≤ 21 then
    if (k : Int) ≤ n then ds ++ List.replicate (n - k).toNat 48
    else if 0 < n then ds.take n.toNat ++ [46] ++ ds.drop n.toNat
    else [48, 46] ++ List.replicate (-n).toNat 48 ++ ds
  else
    let e := natDigits (n - 1).natAbs
    let sign := if 0 < n - 1 then 43 else 45
    if k = 1 then ds ++ [101, sign] ++ e
    else ds.take 1 ++ [46] ++ ds.drop 1 ++ [101, sign] ++ e

/-- The conversion `Number::toString(x)` with radix 10. -/
def numberToString : JSNum → JSString
  | .nan => js "NaN"
  | .inf s => if s then js "-Infinity" else js "Infinity"
  | .fin s m =>
    if m = 0 then js "0"
    else
      (if s then [45] else []) ++
        formatDecimal (shortestDecimal m).1 (shortestDecimal m).2.1 (shortestDecimal m).2.2

/-! ## JSON values, `JSON.stringify` and `JSON.parse` -/

/-- The values that `JSON.parse` can produce.  An object is its list of own properties in
enumeration order. -/
inductive JSValue where
  | null
  | bool (b : Bool)
  | num (n : JSNum)
  | str (s : JSString)
  | arr (elems : List JSValue)
  | obj (props : List (JSString × JSValue))

/-- The exceptions the script can run into. -/
inductive JSError where
  | syntaxError
  | typeError
  deriving DecidableEq, Repr

/-- The array index a property key denotes, if it is a canonical numeric string for an
integer in `[0, 2 ^ 32 - 2]`. -/
def arrayIndex (k : JSString) : Option Nat :=
  if k ≠ [] ∧ k.all isDigit ∧ (k = [48] ∨ k.head? ≠ some 48) ∧ digitsVal k ≤ 4294967294 then
    some (digitsVal k)
  else none

/-- Adds a property that the object does not have yet: array-index keys go first in
ascending order, other keys follow in creation order. -/
def objInsert (k : JSString) (v : JSValue) :
    List (JSString × JSValue) → List (JSString × JSValue)
  | [] => [(k, v)]
  | p :: ps =>
    match arrayIndex k, arrayIndex p.1 with
    | some n, some i => if n < i then (k, v) :: p :: ps else p :: objInsert k v ps
    | some _, none => (k, v) :: p :: ps
    | none, _ => p :: objInsert k v ps

/-- Defines or overwrites the own property `k` (`CreateDataProperty` / `Set`). -/
def objSet (ps : List (JSString × JSValue)) (k : JSString) (v : JSValue) :
    List (JSString × JSValue) :=
  if ps.any (fun p => p.1 = k) then ps.map fun p => if p.1 = k then (k, v) else p
  else objInsert k v ps

/-- The value of the own property `k`, if there is one. -/
def objGet (ps : List (JSString × JSValue)) (k : JSString) : Option JSValue :=
  (ps.find? fun p => p.1 = k).map Prod.snd

/-- A hexadecimal digit (lower case) for `n < 16`. -/
def hexDigit (n : Nat) : Nat := if n < 10 then 48 + n else 87 + n

/-- The escape `\uXXXX` of a code unit. -/
def unicodeEscape (c : Nat) : JSString :=
  [0x5C, 0x75, hexDigit (c / 4096 % 16), hexDigit (c / 256 % 16), hexDigit (c / 16 % 16),
    hexDigit (c % 16)]

/-- A leading surrogate. -/
def isLead (c : Nat) : Bool := 0xD800 ≤ c && c ≤ 0xDBFF

/-- A trailing surrogate. -/
def isTrail (c : Nat) : Bool := 0xDC00 ≤ c && c ≤ 0xDFFF

/-- Whether the text starts with a trailing surrogate. -/
def nextIsTrail : JSString → Bool
  | d :: _ => isTrail d
  | [] => false

/-- The body of `QuoteJSONString`: control characters, the quote, the backslash and lone
surrogates are escaped, everything else (surrogate pairs included) is copied. -/
def quoteChars : JSString → JSString
  | [] => []
  | c :: r =>
    if c = 0x08 then [0x5C, 0x62] ++ quoteChars r
    else if c = 0x09 then [0x5C, 0x74] ++ quoteChars r
    else if c = 0x0A then [0x5C, 0x6E] ++ quoteChars r
    else if c = 0x0C then [0x5C, 0x66] ++ quoteChars r
    else if c = 0x0D then [0x5C, 0x72] ++ quoteChars r
    else if c = 0x22 then [0x5C, 0x22] ++ quoteChars r
    else if c = 0x5C then [0x5C, 0x5C] ++ quoteChars r
    else if c < 0x20 then unicodeEscape c ++ quoteChars r
    else if isLead c && nextIsTrail r then
      match r with
      | d :: r2 => c :: d :: quoteChars r2
      | [] => []
    else if isLead c || isTrail c then unicodeEscape c ++ quoteChars r
    else c :: quoteChars r

/-- The operation `QuoteJSONString`. -/
def quoteJSONString (s : JSString) : JSString := 0x22 :: (quoteChars s ++ [0x22])

namespace JSON

mutual
/-- The function `JSON.stringify(value)` without replacer or indentation. -/
def stringify : JSValue → JSString
  | .null => js "null"
  | .bool b => if b then js "true" else js "false"
  | .num n => if n.isFinite then numberToString n else js "null"
  | .str s => quoteJSONString s
  | .arr xs => 0x5B :: (stringifyElems xs ++ [0x5D])
  | .obj ps => 0x7B :: (stringifyProps ps ++ [0x7D])
/-- The elements of an array, separated by commas. -/
def stringifyElems : List JSValue → JSString
  | [] => []
  | [x] => stringify x
  | x :: y :: r => stringify x ++ 0x2C :: stringifyElems (y :: r)
/-- The members of an object, separated by commas. -/
def stringifyProps : List (JSString × JSValue) → JSString
  | [] => []
  | [p] => quoteJSONString p.1 ++ 0x3A :: stringify p.2
  | p :: q :: r => quoteJSONString p.1 ++ 0x3A :: (stringify p.2 ++ 0x2C :: stringifyProps (q :: r))
end

/-- JSON white space. -/
def isJsonWs (c : Nat) : Bool := c = 0x20 || c = 0x09 || c = 0x0A || c = 0x0D

/-- Skips JSON white space. -/
def skipWs (cs : JSString) : JSString := cs.dropWhile isJsonWs

/-- The value of a hexadecimal digit. -/
def hexVal (c : Nat) : Option Nat :=
  if 48 ≤ c ∧ c ≤ 57 then some (c - 48)
  else if 97 ≤ c ∧ c ≤ 102 then some (c - 87)
  else if 65 ≤ c ∧ c ≤ 70 then some (c - 55)
  else none

/-- The code unit written by four hexadecimal digits. -/
def hex4 (a b c d : Nat) : Option Nat :=
  match hexVal a, hexVal b, hexVal c, hexVal d with
  | some x, some y, some z, some w => some (x * 4096 + y * 256 + z * 16 + w)
  | _, _, _, _ => none

/-- The characters of a string literal after its opening quote, up to the closing quote;
the result is the string and the text after the closing quote. -/
def parseChars : JSString → Option (JSString × JSString)
  | [] => none
  | c :: r =>
    if c = 0x22 then some ([], r)
    else if c = 0x5C then
      match r with
      | [] => none
      | e :: r1 =>
        if e = 0x22 then (parseChars r1).map fun p => (0x22 :: p.1, p.2)
        else if e = 0x5C then (parseChars r1).map fun p => (0x5C :: p.1, p.2)
        else if e = 0x2F then (parseChars r1).map fun p => (0x2F :: p.1, p.2)
        else if e = 0x62 then (parseChars r1).map fun p => (0x08 :: p.1, p.2)
        else if e = 0x66 then (parseChars r1).map fun p => (0x0C :: p.1, p.2)
        else if e = 0x6E then (parseChars r1).map fun p => (0x0A :: p.1, p.2)
        else if e = 0x72 then (parseChars r1).map fun p => (0x0D :: p.1, p.2)
        else if e = 0x74 then (parseChars r1).map fun p => (0x09 :: p.1, p.2)
        else if e = 0x75 then
          match r1 with
          | a :: b :: c2 :: d :: r2 =>
            match hex4 a b c2 d with
            | some u => (parseChars r2).map fun p => (u :: p.1, p.2)
            | none => none
          | _ => none
        else none
    else if c < 0x20 then none
    else (parseChars r).map fun p => (c :: p.1, p.2)

/-- A JSON number literal at the start of the text: `-? int frac? exp?`. -/
def parseNumber (cs : JSString) : Option (JSNum × JSString) :=
  let neg := cs.head? = some 45
  let r0 := if cs.head? = some 45 then cs.tail else cs
  let ip := if r0.head? = some 48 then [48] else (r0.span isDigit).1
  let r1 := if r0.head? = some 48 then r0.tail else (r0.span isDigit).2
  if ip = [] then none
  else
    let hasFrac := r1.head? = some 46
    let fp := if hasFrac then (r1.tail.span isDigit).1 else []
    let r2 := if hasFrac then (r1.tail.span isDigit).2 else r1
    if hasFrac ∧ fp = [] then none
    else
      let hasExp := r2.head? = some 101 ∨ r2.head? = some 69
      let r3 := if r2.tail.head? = some 43 ∨ r2.tail.head? = some 45 then r2.tail.tail
        else r2.tail
      let expNeg := r2.tail.head? = some 45
      let ep := (r3.span isDigit).1
      if hasExp ∧ ep = [] then none
      else
        let e : Int := if hasExp then (if expNeg then - (digitsVal ep : Int) else digitsVal ep)
          else 0
        some (JSNum.roundMag neg ((digitsVal (ip ++ fp) : ℚ) * (10 : ℚ) ^ (e - fp.length)),
          if hasExp then (r3.span isDigit).2 else r2)

mutual
/-- A JSON value at the start of the text (after white space), with the text that follows
it.  The first argument bounds the recursion depth. -/
def parseValue : Nat → JSString → Option (JSValue × JSString)
  | 0, _ => none
  | fuel + 1, cs =>
    match skipWs cs with
    | [] => none
    | c :: r =>
      if c = 0x22 then (parseChars r).map fun p => (.str p.1, p.2)
      else if c = 0x5B then
        match skipWs r with
        | [] => none
        | d :: r1 => if d = 0x5D then some (.arr [], r1) else parseElements fuel r []
      else if c = 0x7B then
        match skipWs r with
        | [] => none
        | d :: r1 => if d = 0x7D then some (.obj [], r1) else parseMembers fuel r []
      else if startsWith (js "true") (c :: r) then some (.bool true, r.drop 3)
      else if startsWith (js "false") (c :: r) then some (.bool false, r.drop 4)
      else if startsWith (js "null") (c :: r) then some (.null, r.drop 3)
      else if c = 45 ∨ isDigit c then (parseNumber (c :: r)).map fun p => (.num p.1, p.2)
      else none
/-- The elements of an array after `[` or `,`, up to and including the closing `]`. -/
def parseElements : Nat → JSString → List JSValue → Option (JSValue × JSString)
  | 0, _, _ => none
  | fuel + 1, cs, acc =>
    match parseValue fuel cs with
    | none => none
    | some (v, r) =>
      match skipWs r with
      | [] => none
      | d :: r1 =>
        if d = 0x2C then parseElements fuel r1 (acc ++ [v])
        else if d = 0x5D then some (.arr (acc ++ [v]), r1)
        else none
/-- The members of an object after `{` or `,`, up to and including the closing `}`. -/
def parseMembers : Nat → JSString → List (JSString × JSValue) → Option (JSValue × JSString)
  | 0, _, _ => none
  | fuel + 1, cs, acc =>
    match skipWs cs with
    | [] => none
    | q :: r =>
      if q = 0x22 then
        match parseChars r with
        | none => none
        | some (k, r1) =>
          match skipWs r1 with
          | [] => none
          | colon :: r2 =>
            if colon = 0x3A then
              match parseValue fuel r2 with
              | none => none
              | some (v, r3) =>
                match skipWs r3 with
                | [] => none
                | d :: r4 =>
                  if d = 0x2C then parseMembers fuel r4 (objSet acc k v)
                  else if d = 0x7D then some (.obj (objSet acc k v), r4)
                  else none
            else none
      else none
end

/-- The function `JSON.parse(text)` without reviver: the text must be one JSON value
surrounded by white space only, otherwise a `SyntaxError` is thrown.  Every nested call
consumes at least one code unit, so the depth bound `text.length + 1` never cuts a parse
short (`parseValue_length_succ` below). -/
def parse (text : JSString) : Except JSError JSValue :=
  match parseValue (text.length + 1) text with
  | some (v, r) => if skipWs r = [] then .ok v else .error .syntaxError
  | none => .error .syntaxError

/-- The outcome of a successful run does not depend on the depth bound: what is left is
no longer than the input, and every bound above the number of code units consumed gives
the same result. -/
def FuelIndependent (run : Nat → JSString → Option (JSValue × JSString)) (f : Nat) : Prop :=
  ∀ (cs : JSString) (v : JSValue) (r : JSString), run f cs = some (v, r) →
    r.length ≤ cs.length ∧ ∀ g, cs.length - r.length < g → run g cs = some (v, r)

end JSON

/-! ## The course list and the page state -/

/-- A course record as `addCourse` creates it. -/
structure Course where
  courseName : JSString
  platform : JSString
  link : JSString
  totalVideos : JSString
  completed : JSString
  dateAdded : JSString
  deriving DecidableEq, Repr

/-- The JavaScript object of a course: its six string properties in creation order. -/
def Course.toJS (c : Course) : JSValue :=
  .obj [(js "courseName", .str c.courseName), (js "platform", .str c.platform),
    (js "link", .str c.link), (js "totalVideos", .str c.totalVideos),
    (js "completed", .str c.completed), (js "dateAdded", .str c.dateAdded)]

/-- The JavaScript array of a course sequence. -/
def coursesToJS (cs : List Course) : JSValue := .arr (cs.map Course.toJS)

/-- The constant `STORAGE_KEY` (index.js, line 2). -/
def STORAGE_KEY : JSString := js "skillListCourses"

/-- The browser storage: the string stored under each key, `none` for an absent key. -/
abbrev Storage := JSString → Option JSString

/-- The method `localStorage.getItem(key)` (`none` stands for `null`). -/
def Storage.getItem (ls : Storage) (key : JSString) : Option JSString := ls key

/-- The method `localStorage.setItem(key, value)`. -/
def Storage.setItem (ls : Storage) (key value : JSString) : Storage :=
  fun k => if k = key then some value else ls k

/-- The state the script reads and writes: `localStorage`, the global
`currentCourseIndex` (`none` for `null`; the table rows pass their position, a natural
number), the values of the form and modal inputs, which modals are shown, and the alerts
raised. -/
structure App where
  localStorage : Storage
  currentCourseIndex : Option Nat
  courseName : JSString
  platform : JSString
  link : JSString
  totalVideos : JSString
  modalCompleted : JSString
  updateModalShown : Bool
  deleteModalShown : Bool
  alerts : List JSString

/-- A freshly loaded page: nothing stored, no active index, empty inputs. -/
def App.fresh : App :=
  { localStorage := fun _ => none, currentCourseIndex := none, courseName := [],
    platform := [], link := [], totalVideos := [], modalCompleted := [],
    updateModalShown := false, deleteModalShown := false, alerts := [] }

/-- The function `getCourses()` (index.js, lines 8-11):
`courses ? JSON.parse(courses) : []`, where `null` and the empty string are falsy. -/
def getCourses (st : App) : Except JSError JSValue :=
  match st.localStorage.getItem STORAGE_KEY with
  | none => .ok (.arr [])
  | some courses => if courses = [] then .ok (.arr []) else JSON.parse courses

/-- The function `saveCourses(courses)` (index.js, lines 14-16). -/
def saveCourses (st : App) (courses : JSValue) : App :=
  { st with localStorage := st.localStorage.setItem STORAGE_KEY (JSON.stringify courses) }

/-- The call `courses.push(course)`: only arrays have the method. -/
def push (courses course : JSValue) : Except JSError JSValue :=
  match courses with
  | .arr xs => .ok (.arr (xs ++ [course]))
  | _ => .error .typeError

/-- The call `courses.splice(index, 1)` for an index `index ≥ 0`: only arrays have the
method; an index past the end removes nothing. -/
def splice (courses : JSValue) (index : Nat) : Except JSError JSValue :=
  match courses with
  | .arr xs => .ok (.arr (xs.eraseIdx index))
  | _ => .error .typeError

/-- The assignment `target.completed = completed` on the value `target` that
`courses[index]` gave (`none` for `undefined`); the result is `target` afterwards.  `null`
and `undefined` throw, an object gets the property, a property set on an array is not
part of its JSON text, and a primitive ignores the assignment (or throws in strict
mode). -/
def assignCompletedTo (strict : Bool) (target : Option JSValue) (completed : JSString) :
    Except JSError JSValue :=
  match target with
  | none => .error .typeError
  | some .null => .error .typeError
  | some (.obj ps) => .ok (.obj (objSet ps (js "completed") (.str completed)))
  | some (.arr xs) => .ok (.arr xs)
  | some v => if strict then .error .typeError else .ok v

/-- The statement `courses[index].completed = completed`; the result is `courses`
afterwards.  Whether the script runs in strict mode depends on how the page loads it. -/
def assignCompleted (strict : Bool) (courses : JSValue) (index : Nat) (completed : JSString) :
    Except JSError JSValue :=
  match courses with
  | .null => .error .typeError
  | .arr xs =>
    match assignCompletedTo strict xs[index]? completed with
    | .ok v => .ok (.arr (xs.set index v))
    | .error e => .error e
  | .obj ps =>
    match assignCompletedTo strict (objGet ps (natDigits index)) completed with
    | .ok v => .ok (.obj (objSet ps (natDigits index) v))
    | .error e => .error e
  | .str s =>
    if index < s.length then (if strict then .error .typeError else .ok (.str s))
    else .error .typeError
  | .num _ => .error .typeError
  | .bool _ => .error .typeError

/-- The function `addCourse(event)` (index.js, lines 87-133), up to the point where the
new list is stored and the form is reset (the inputs are taken to have no default
value); `now` is `new Date().toISOString()`.  An exception leaves the state as it
was. -/
def addCourse (now : JSString) (st : App) : Except JSError App :=
  let courseName := trim st.courseName
  let platform := trim st.platform
  let link := trim st.link
  let totalVideos := trim st.totalVideos
  if courseName = [] ∨ platform = [] ∨ totalVideos = [] then
    .ok { st with alerts := st.alerts ++ [js "Please fill in all required fields!"] }
  else
    let course : JSValue :=
      .obj [(js "courseName", .str courseName), (js "platform", .str platform),
        (js "link", .str (if link = [] then js "" else link)),
        (js "totalVideos", .str totalVideos), (js "completed", .str (js "0")),
        (js "dateAdded", .str now)]
    match getCourses st with
    | .error e => .error e
    | .ok courses =>
      match push courses course with
      | .error e => .error e
      | .ok courses =>
        .ok { saveCourses st courses with
          courseName := [], platform := [], link := [], totalVideos := [] }

/-- The function `closeUpdateModal()` (index.js, lines 150-153). -/
def closeUpdateModal (st : App) : App :=
  { st with updateModalShown := false, currentCourseIndex := none }

/-- The function `saveCompletion()` (index.js, lines 156-179), up to the point where the
modal is closed.  An exception leaves the state as it was. -/
def saveCompletion (strict : Bool) (st : App) : Except JSError App :=
  match st.currentCourseIndex with
  | none => .ok st
  | some index =>
    let completed := trim st.modalCompleted
    if completed = [] then
      .ok { st with alerts := st.alerts ++ [js "Please enter completion value!"] }
    else
      match getCourses st with
      | .error e => .error e
      | .ok courses =>
        match assignCompleted strict courses index completed with
        | .error e => .error e
        | .ok courses => .ok (closeUpdateModal (saveCourses st courses))

/-- The function `openDeleteModal(index)` (index.js, lines 182-185). -/
def openDeleteModal (index : Nat) (st : App) : App :=
  { st with currentCourseIndex := some index, deleteModalShown := true }

/-- The function `closeDeleteModal()` (index.js, lines 188-191). -/
def closeDeleteModal (st : App) : App :=
  { st with deleteModalShown := false, currentCourseIndex := none }

/-- The function `confirmDelete()` (index.js, lines 194-205), up to the point where the
modal is closed.  An exception leaves the state as it was. -/
def confirmDelete (st : App) : Except JSError App :=
  match st.currentCourseIndex with
  | none => .ok st
  | some index =>
    match getCourses st with
    | .error e => .error e
    | .ok courses =>
      match splice courses index with
      | .error e => .error e
      | .ok courses => .ok (closeDeleteModal (saveCourses st courses))

end SkillList

/-! # Theorems -/

namespace SkillList
namespace JSNum

theorem roundHalfEven_intCast (n : ℤ) : roundHalfEven (n : ℚ) = n := by
  simp [roundHalfEven]

theorem le_roundHalfEven {k : ℤ} {x : ℚ} (h : (k : ℚ) ≤ x) : k ≤ roundHalfEven x := by
  have h1 : k ≤ ⌊x⌋ := Int.le_floor.mpr h
  unfold roundHalfEven
  split_ifs <;> omega

theorem ulp_pos (m : ℚ) : 0 < ulp m := by
  unfold ulp
  positivity

/-- The exponent chosen for `m` is at most `e` when `m < 2 ^ (e + 1)` and `-1022 ≤ e`. -/
theorem ulp_exp_le {m : ℚ} (hm : 0 < m) {e : ℤ} (he : -1022 ≤ e) (h : m < (2 : ℚ) ^ (e + 1)) :
    max (Int.log 2 m) (-1022) ≤ e := by
  have h1 : Int.log 2 m < e + 1 := by
    have := (Int.lt_zpow_iff_log_lt (R := ℚ) (b := 2) (by norm_num) hm).1 (by exact_mod_cast h)
    exact this
  exact max_le (by omega) he

/-- Magnitudes `k * 2 ^ j` with a 53-bit `k` and `j` in range are binary64 values: rounding
leaves them unchanged. -/
theorem roundMag_exact (s : Bool) (k : ℕ) (j : ℤ) (hk : k < 2 ^ 53) (hj : -1074 ≤ j)
    (hlt : (k : ℚ) * (2 : ℚ) ^ j < (2 : ℚ) ^ (1024 : ℕ)) :
    roundMag s ((k : ℚ) * (2 : ℚ) ^ j) = fin s ((k : ℚ) * (2 : ℚ) ^ j) := by
  rcases Nat.eq_zero_or_pos k with h0 | hpos
  · subst h0; simp [roundMag]
  have h2j : (0 : ℚ) < (2 : ℚ) ^ j := by positivity
  have hm : (0 : ℚ) < (k : ℚ) * (2 : ℚ) ^ j := by positivity
  have hexp : max (Int.log 2 ((k : ℚ) * (2 : ℚ) ^ j)) (-1022) ≤ j + 52 := by
    apply ulp_exp_le hm (by omega)
    have hk' : (k : ℚ) < (2 : ℚ) ^ (53 : ℤ) := by
      have : ((2 ^ 53 : ℕ) : ℚ) = (2 : ℚ) ^ (53 : ℤ) := by norm_num
      rw [← this]; exact_mod_cast hk
    calc (k : ℚ) * (2 : ℚ) ^ j < (2 : ℚ) ^ (53 : ℤ) * (2 : ℚ) ^ j :=
          mul_lt_mul_of_pos_right hk' h2j
      _ = (2 : ℚ) ^ (j + 52 + 1) := by
          rw [← zpow_add₀ (by norm_num : (2 : ℚ) ≠ 0)]; congr 1; ring
  obtain ⟨n, hn⟩ : ∃ n : ℕ, j - (max (Int.log 2 ((k : ℚ) * (2 : ℚ) ^ j)) (-1022) - 52) = n :=
    ⟨(j - (max (Int.log 2 ((k : ℚ) * (2 : ℚ) ^ j)) (-1022) - 52)).toNat, by omega⟩
  have hdiv : (k : ℚ) * (2 : ℚ) ^ j / ulp ((k : ℚ) * (2 : ℚ) ^ j) = ((k * 2 ^ n : ℕ) : ℤ) := by
    unfold ulp
    rw [mul_div_assoc, ← zpow_sub₀ (by norm_num : (2 : ℚ) ≠ 0), hn]
    push_cast
    simp
  have hr : (roundHalfEven ((k : ℚ) * (2 : ℚ) ^ j / ulp ((k : ℚ) * (2 : ℚ) ^ j)) : ℚ)
      * ulp ((k : ℚ) * (2 : ℚ) ^ j) = (k : ℚ) * (2 : ℚ) ^ j := by
    rw [hdiv, roundHalfEven_intCast, ← hdiv]
    exact div_mul_cancel₀ _ (ulp_pos _).ne'
  unfold roundMag
  rw [hr, if_neg hm.ne', if_neg (not_le.mpr hlt)]

/-- Natural numbers below `2 ^ 53` are binary64 values. -/
theorem roundMag_natCast (s : Bool) (k : ℕ) (hk : k < 2 ^ 53) :
    roundMag s (k : ℚ) = fin s (k : ℚ) := by
  have h := roundMag_exact s k 0 hk (by norm_num) (by
    rw [zpow_zero, mul_one]
    have h1 : (k : ℚ) < ((2 ^ 53 : ℕ) : ℚ) := by exact_mod_cast hk
    have h2 : ((2 ^ 53 : ℕ) : ℚ) < (2 : ℚ) ^ (1024 : ℕ) := by norm_num
    exact h1.trans h2)
  simpa using h

/-- Rounding never moves a magnitude below a grid point that lies under it. -/
theorem roundMag_ge_grid (s : Bool) {m : ℚ} (hm : 0 < m) (k : ℤ) (hk : (k : ℚ) * ulp m ≤ m) :
    roundMag s m = inf s ∨ ∃ r, (k : ℚ) * ulp m ≤ r ∧ roundMag s m = fin s r := by
  have hu := ulp_pos m
  have h1 : k ≤ roundHalfEven (m / ulp m) := le_roundHalfEven ((le_div_iff₀ hu).2 hk)
  have h2 : (k : ℚ) * ulp m ≤ (roundHalfEven (m / ulp m) : ℚ) * ulp m :=
    mul_le_mul_of_nonneg_right (by exact_mod_cast h1) hu.le
  unfold roundMag
  rw [if_neg hm.ne']
  split_ifs
  · exact Or.inl rfl
  · exact Or.inr ⟨_, h2, rfl⟩

/-- Rounding keeps non-negative magnitudes non-negative. -/
theorem roundMag_nonneg (s : Bool) {m : ℚ} (hm : 0 ≤ m) :
    roundMag s m = inf s ∨ ∃ r, 0 ≤ r ∧ roundMag s m = fin s r := by
  rcases hm.eq_or_lt with h0 | hpos
  · subst h0; exact Or.inr ⟨0, le_refl _, by simp [roundMag]⟩
  · have := roundMag_ge_grid s hpos 0 (by simpa using hpos.le)
    simpa using this

/-- Rounding is monotone against a natural number `d < 2 ^ 53`: a magnitude that is
at least `d` rounds to at least `d`. -/
theorem le_roundMag (s : Bool) (d : ℕ) (hd0 : 0 < d) (hd : d < 2 ^ 53) {m : ℚ}
    (h : (d : ℚ) ≤ m) :
    roundMag s m = inf s ∨ ∃ r, (d : ℚ) ≤ r ∧ roundMag s m = fin s r := by
  have hd1 : (1 : ℚ) ≤ d := by exact_mod_cast hd0
  have hm : 0 < m := by linarith
  have he0 : 0 ≤ Int.log 2 m := by
    have := (Int.zpow_le_iff_le_log (R := ℚ) (b := 2) (x := 0) (by norm_num) hm).1
      (by simpa using hd1.trans h)
    exact this
  have hmax : max (Int.log 2 m) (-1022) = Int.log 2 m := max_eq_left (by omega)
  have hlog : (2 : ℚ) ^ (Int.log 2 m) ≤ m := by
    have := Int.zpow_log_le_self (R := ℚ) (b := 2) (by norm_num) hm
    simpa using this
  have hu : ulp m = (2 : ℚ) ^ (Int.log 2 m - 52) := by unfold ulp; rw [hmax]
  by_cases hle : Int.log 2 m ≤ 52
  · obtain ⟨n, hn⟩ : ∃ n : ℕ, 52 - Int.log 2 m = n := ⟨(52 - Int.log 2 m).toNat, by omega⟩
    have hk : (((d * 2 ^ n : ℕ) : ℤ) : ℚ) * ulp m = d := by
      rw [hu]
      push_cast
      rw [mul_assoc, ← zpow_natCast, ← hn, ← zpow_add₀ (by norm_num : (2 : ℚ) ≠ 0)]
      simp
    have := roundMag_ge_grid s hm ((d * 2 ^ n : ℕ) : ℤ) (by rw [hk]; exact h)
    rw [hk] at this
    exact this
  · have hk : (((2 ^ 52 : ℕ) : ℤ) : ℚ) * ulp m = (2 : ℚ) ^ (Int.log 2 m) := by
      rw [hu]
      have h52 : (((2 ^ 52 : ℕ) : ℤ) : ℚ) = (2 : ℚ) ^ (52 : ℤ) := by norm_num
      rw [h52, ← zpow_add₀ (by norm_num : (2 : ℚ) ≠ 0)]
      congr 1
      ring
    have hbig : (d : ℚ) ≤ (2 : ℚ) ^ (Int.log 2 m) := by
      have h1 : (d : ℚ) ≤ ((2 ^ 53 : ℕ) : ℚ) := by exact_mod_cast hd.le
      have h2 : ((2 ^ 53 : ℕ) : ℚ) = (2 : ℚ) ^ (53 : ℤ) := by norm_num
      rw [h2] at h1
      exact h1.trans (zpow_le_zpow_right₀ (by norm_num) (by omega))
    rcases roundMag_ge_grid s hm ((2 ^ 52 : ℕ) : ℤ) (by rw [hk]; exact hlog) with h | ⟨r, hr, h⟩
    · exact Or.inl h
    · rw [hk] at hr
      exact Or.inr ⟨r, hbig.trans hr, h⟩

end JSNum
end SkillList

namespace SkillList

open JSNum

theorem roundMag_ne_nan (s : Bool) (m : ℚ) : roundMag s m ≠ nan := by
  unfold roundMag
  split_ifs <;> simp

theorem parseFloat_nan_iff (s : JSString) :
    parseFloat s = nan ↔ scanDecimal (trimStart s) = none := by
  unfold parseFloat
  split
  · simp [*]
  · simp [*]
  · simp [*, roundMag_ne_nan]

/-- The magnitude of a parsed finite number is non-negative. -/
theorem parseFloat_mag_nonneg {s : JSString} {sg : Bool} {m : ℚ}
    (h : parseFloat s = fin sg m) : 0 ≤ m := by
  unfold parseFloat at h
  split at h
  · simp at h
  · simp at h
  · rename_i neg mant e _
    have hnn : (0 : ℚ) ≤ (mant : ℚ) * (10 : ℚ) ^ e := by positivity
    rcases roundMag_nonneg neg hnn with h1 | ⟨r, hr, h1⟩
    · rw [h1] at h; simp at h
    · rw [h1] at h
      injection h with _ h2
      rw [← h2]; exact hr

theorem min_hundred_of_ge {k : ℚ} (hk : 100 ≤ k) :
    JSNum.min (fin false k) (ofNat 100) = ofNat 100 := by
  simp only [JSNum.min, ofNat, toRat]
  have h1 : ¬ (k < ((100 : ℕ) : ℚ)) := by push_cast; linarith
  simp only [Bool.false_eq_true, if_false, if_neg h1]
  split_ifs <;> rfl

/-- Anything that is at least `100` after rounding the product is reported as `100`. -/
theorem round_min_of_ge {x : JSNum}
    (hx : x = inf false ∨ ∃ r : ℚ, 100 ≤ r ∧ x = fin false r) :
    JSNum.min (JSNum.round x) (ofNat 100) = ofNat 100 := by
  rcases hx with h | ⟨r, hr, h⟩
  · subst h; simp [JSNum.round, JSNum.min, ofNat]
  · subst h
    simp only [JSNum.round]
    apply min_hundred_of_ge
    have h1 : (100 : ℤ) ≤ ⌊r + 1 / 2⌋ := Int.le_floor.mpr (by push_cast; linarith)
    have h2 : (100 : ℚ) ≤ ((⌊r + 1 / 2⌋ : ℤ) : ℚ) := by exact_mod_cast h1
    simp only [Bool.false_eq_true, if_false]
    rw [abs_of_nonneg (by linarith)]
    exact h2

theorem mul_hundred_of_ge_one {x : JSNum}
    (hx : x = inf false ∨ ∃ r : ℚ, 1 ≤ r ∧ x = fin false r) :
    JSNum.mul x (ofNat 100) = inf false ∨
      ∃ r : ℚ, 100 ≤ r ∧ JSNum.mul x (ofNat 100) = fin false r := by
  rcases hx with h | ⟨r, hr, h⟩
  · subst h; left; simp [JSNum.mul, ofNat]
  · subst h
    have h100 : ((100 : ℕ) : ℚ) ≤ r * ((100 : ℕ) : ℚ) := by push_cast; linarith
    have := le_roundMag false 100 (by norm_num) (by norm_num) h100
    simpa [JSNum.mul, ofNat] using this

theorem calculatePercentage_guard {c t : JSString}
    (h : (parseFloat c).isNaN = true ∨ (parseFloat t).isNaN = true ∨
      (parseFloat t).isZero = true) :
    calculatePercentage c t = ofNat 0 := by
  unfold calculatePercentage
  rcases h with h | h | h <;> simp [h]

/-- Past the guard the calculator returns the capped, rounded product. -/
theorem calculatePercentage_of_guard_false {c t : JSString}
    (hc : (parseFloat c).isNaN = false) (ht : (parseFloat t).isNaN = false)
    (hz : (parseFloat t).isZero = false) :
    calculatePercentage c t =
      JSNum.min (JSNum.round (JSNum.mul (JSNum.div (parseFloat c) (parseFloat t)) (ofNat 100)))
        (ofNat 100) := by
  unfold calculatePercentage
  simp [hc, ht, hz]

end SkillList

namespace SkillList

open JSNum

theorem isPercent_ofNat {p : ℕ} (hp : p ≤ 100) : IsPercent (ofNat p) := by
  refine ⟨rfl, (p : ℤ), by omega, by omega, ?_⟩
  simp [ofNat, toRat]

theorem isPercent_round_min {x : JSNum}
    (hx : x = inf false ∨ ∃ r : ℚ, 0 ≤ r ∧ x = fin false r) :
    IsPercent (JSNum.min (JSNum.round x) (ofNat 100)) := by
  rcases hx with h | ⟨r, hr, h⟩
  · subst h
    have : JSNum.min (JSNum.round (inf false)) (ofNat 100) = ofNat 100 := by
      simp [JSNum.round, JSNum.min, ofNat]
    rw [this]; exact isPercent_ofNat (le_refl _)
  · subst h
    have h0 : (0 : ℤ) ≤ ⌊r + 1 / 2⌋ := Int.le_floor.mpr (by push_cast; linarith)
    have h0q : (0 : ℚ) ≤ ((⌊r + 1 / 2⌋ : ℤ) : ℚ) := by exact_mod_cast h0
    have hround : JSNum.round (fin false r) = fin false ((⌊r + 1 / 2⌋ : ℤ) : ℚ) := by
      simp only [JSNum.round, Bool.false_eq_true, if_false]
      rw [abs_of_nonneg h0q]
    rw [hround]
    by_cases hlt : ⌊r + 1 / 2⌋ < 100
    · have hltq : ((⌊r + 1 / 2⌋ : ℤ) : ℚ) < ((100 : ℕ) : ℚ) := by exact_mod_cast hlt
      have : JSNum.min (fin false ((⌊r + 1 / 2⌋ : ℤ) : ℚ)) (ofNat 100)
          = fin false ((⌊r + 1 / 2⌋ : ℤ) : ℚ) := by
        simp only [JSNum.min, ofNat, toRat, Bool.false_eq_true, if_false, if_pos hltq]
      rw [this]
      exact ⟨rfl, ⌊r + 1 / 2⌋, h0, by omega, by simp [toRat]⟩
    · have hge : (100 : ℚ) ≤ ((⌊r + 1 / 2⌋ : ℤ) : ℚ) := by
        have : (100 : ℤ) ≤ ⌊r + 1 / 2⌋ := by omega
        exact_mod_cast this
      rw [min_hundred_of_ge hge]
      exact isPercent_ofNat (le_refl _)

theorem div_unsigned {m n : ℚ} (hm : 0 ≤ m) (hn : 0 ≤ n) (hn0 : n ≠ 0) :
    JSNum.div (fin false m) (fin false n) = inf false ∨
      ∃ r : ℚ, 0 ≤ r ∧ JSNum.div (fin false m) (fin false n) = fin false r := by
  have := roundMag_nonneg false (div_nonneg hm hn)
  simpa [JSNum.div, hn0] using this

theorem mul_hundred_unsigned {x : JSNum}
    (hx : x = inf false ∨ ∃ r : ℚ, 0 ≤ r ∧ x = fin false r) :
    JSNum.mul x (ofNat 100) = inf false ∨
      ∃ r : ℚ, 0 ≤ r ∧ JSNum.mul x (ofNat 100) = fin false r := by
  rcases hx with h | ⟨r, hr, h⟩
  · subst h; left; simp [JSNum.mul, ofNat]
  · subst h
    have h100 : (0 : ℚ) ≤ r * ((100 : ℕ) : ℚ) := by positivity
    have := roundMag_nonneg false h100
    simpa [JSNum.mul, ofNat] using this

theorem div_ge_one {m n : ℚ} (hn : 0 < n) (hmn : n ≤ m) :
    JSNum.div (fin false m) (fin false n) = inf false ∨
      ∃ r : ℚ, 1 ≤ r ∧ JSNum.div (fin false m) (fin false n) = fin false r := by
  have h1 : ((1 : ℕ) : ℚ) ≤ m / n := by
    rw [Nat.cast_one, le_div_iff₀ hn]; linarith
  have := le_roundMag false 1 (by norm_num) (by norm_num) h1
  simpa [JSNum.div, hn.ne'] using this

/-! ### Evaluating the calculator on concrete texts -/

theorem parseFloat_minus_five : parseFloat (js "-5") = fin true 5 := by
  have h : scanDecimal (trimStart (js "-5")) = some (.dec true 5 0) := by decide
  have h2 := roundMag_natCast true 5 (by norm_num)
  simp only [parseFloat, h]
  simpa using h2

theorem parseFloat_ten : parseFloat (js "10") = fin false 10 := by
  have h : scanDecimal (trimStart (js "10")) = some (.dec false 10 0) := by decide
  have h2 := roundMag_natCast false 10 (by norm_num)
  simp only [parseFloat, h]
  simpa using h2

theorem parseFloat_five : parseFloat (js "5") = fin false 5 := by
  have h : scanDecimal (trimStart (js "5")) = some (.dec false 5 0) := by decide
  have h2 := roundMag_natCast false 5 (by norm_num)
  simp only [parseFloat, h]
  simpa using h2

theorem parseFloat_zero : parseFloat (js "0") = fin false 0 := by
  have h : scanDecimal (trimStart (js "0")) = some (.dec false 0 0) := by decide
  simp [parseFloat, h, roundMag]

theorem parseFloat_empty : parseFloat (js "") = nan := by
  have h : scanDecimal (trimStart (js "")) = none := by decide
  simp [parseFloat, h]

theorem calculatePercentage_minus_five_ten :
    calculatePercentage (js "-5") (js "10") = fin true 50 := by
  have hdiv : JSNum.div (fin true 5) (fin false 10) = fin true (1 / 2) := by
    have h := roundMag_exact true 1 (-1) (by norm_num) (by norm_num) (by norm_num)
    have e : ((1 : ℕ) : ℚ) * (2 : ℚ) ^ (-1 : ℤ) = 5 / 10 := by norm_num
    rw [e] at h
    simp only [JSNum.div, Bool.xor_false]
    rw [if_neg (by norm_num), h]
    norm_num
  have hmul : JSNum.mul (fin true (1 / 2)) (ofNat 100) = fin true 50 := by
    have h := roundMag_natCast true 50 (by norm_num)
    have e : ((50 : ℕ) : ℚ) = 1 / 2 * ((100 : ℕ) : ℚ) := by norm_num
    rw [e] at h
    simp only [JSNum.mul, ofNat, Bool.xor_false]
    rw [h]
    norm_num
  have hround : JSNum.round (fin true 50) = fin true 50 := by
    have e : ⌊-(50 : ℚ) + 1 / 2⌋ = -50 := by
      rw [Int.floor_eq_iff]; constructor <;> norm_num
    simp only [JSNum.round, if_true, e]
    norm_num
  have hmin : JSNum.min (fin true 50) (ofNat 100) = fin true 50 := by
    simp only [JSNum.min, ofNat, toRat, if_true, Bool.false_eq_true, if_false]
    rw [if_pos (by norm_num)]
  unfold calculatePercentage
  simp only [parseFloat_minus_five, parseFloat_ten]
  simp only [isNaN, isZero, Bool.or_self, Bool.false_or]
  rw [if_neg (by norm_num)]
  simp only [hdiv, hmul, hround, hmin]

end SkillList

namespace SkillList

open JSNum

theorem roundMag_wellFormed (s : Bool) {m : ℚ} (hm : 0 ≤ m) : (roundMag s m).WellFormed := by
  rcases roundMag_nonneg s hm with h | ⟨r, hr, h⟩
  · rw [h]; trivial
  · rw [h]; exact hr

theorem parseFloat_wellFormed (s : JSString) : (parseFloat s).WellFormed := by
  cases h : parseFloat s with
  | nan => trivial
  | inf _ => trivial
  | fin sg m => exact parseFloat_mag_nonneg h

theorem div_wellFormed {a b : JSNum} (ha : a.WellFormed) (hb : b.WellFormed) :
    (JSNum.div a b).WellFormed := by
  cases a with
  | nan => cases b <;> trivial
  | inf s => cases b <;> trivial
  | fin s m =>
    cases b with
    | nan => trivial
    | inf t => exact le_refl (0 : ℚ)
    | fin t n =>
      simp only [JSNum.div]
      split_ifs
      · trivial
      · trivial
      · exact roundMag_wellFormed _ (div_nonneg ha hb)

theorem mul_wellFormed {a b : JSNum} (ha : a.WellFormed) (hb : b.WellFormed) :
    (JSNum.mul a b).WellFormed := by
  cases a with
  | nan => cases b <;> trivial
  | inf s =>
    cases b with
    | nan => trivial
    | inf t => trivial
    | fin t n => simp only [JSNum.mul]; split_ifs <;> trivial
  | fin s m =>
    cases b with
    | nan => trivial
    | inf t => simp only [JSNum.mul]; split_ifs <;> trivial
    | fin t n => exact roundMag_wellFormed _ (mul_nonneg ha hb)

/-- The value of `Math.round(x)` for a finite `x`. -/
theorem toRat_round_fin (s : Bool) {m : ℚ} (hm : 0 ≤ m) :
    (JSNum.round (fin s m)).toRat = ((⌊(fin s m).toRat + 1 / 2⌋ : ℤ) : ℚ) := by
  cases s with
  | false =>
    have h0 : (0 : ℤ) ≤ ⌊m + 1 / 2⌋ := Int.le_floor.mpr (by push_cast; linarith)
    have h0q : (0 : ℚ) ≤ ((⌊m + 1 / 2⌋ : ℤ) : ℚ) := by exact_mod_cast h0
    simp only [JSNum.round, toRat, Bool.false_eq_true, if_false]
    rw [abs_of_nonneg h0q]
  | true =>
    have h0 : ⌊-m + 1 / 2⌋ ≤ (0 : ℤ) := by
      have : ⌊-m + 1 / 2⌋ < 1 := Int.floor_lt.mpr (by push_cast; linarith)
      omega
    have h0q : ((⌊-m + 1 / 2⌋ : ℤ) : ℚ) ≤ 0 := by exact_mod_cast h0
    simp only [JSNum.round, toRat, if_true]
    rw [abs_of_nonpos h0q, neg_neg]

/-- Capping a finite integer value at `100`. -/
theorem min_fin_hundred (s : Bool) (k : ℚ) (n : ℤ) (h : (fin s k).toRat = n) :
    ∃ p : ℤ, p ≤ 100 ∧ (JSNum.min (fin s k) (ofNat 100)).isFinite = true ∧
      (JSNum.min (fin s k) (ofNat 100)).toRat = p := by
  have h100 : (fin false ((100 : ℕ) : ℚ)).toRat = ((100 : ℤ) : ℚ) := by simp [toRat]
  simp only [JSNum.min, ofNat]
  by_cases h1 : (fin s k).toRat < (fin false ((100 : ℕ) : ℚ)).toRat
  · rw [if_pos h1]
    rw [h, h100] at h1
    exact ⟨n, by have := Int.cast_lt.mp h1; omega, rfl, h⟩
  · rw [if_neg h1]
    by_cases h2 : (fin false ((100 : ℕ) : ℚ)).toRat < (fin s k).toRat
    · rw [if_pos h2]
      exact ⟨100, le_refl _, rfl, h100⟩
    · rw [if_neg h2]
      cases s with
      | false => exact ⟨100, le_refl _, rfl, h100⟩
      | true =>
        rw [if_pos rfl]
        rw [h, h100] at h2
        exact ⟨n, Int.cast_le.mp (not_lt.mp h2), rfl, h⟩

/-- Whatever the product is, the reported value is `NaN`, `-Infinity` or an integer that
does not exceed `100`. -/
theorem round_min_le_hundred {x : JSNum} (hx : x.WellFormed) :
    JSNum.min (JSNum.round x) (ofNat 100) = nan ∨
      JSNum.min (JSNum.round x) (ofNat 100) = inf true ∨
      ∃ p : ℤ, p ≤ 100 ∧ (JSNum.min (JSNum.round x) (ofNat 100)).isFinite = true ∧
        (JSNum.min (JSNum.round x) (ofNat 100)).toRat = p := by
  cases x with
  | nan => left; rfl
  | inf s =>
    cases s with
    | true => right; left; rfl
    | false =>
      right; right
      exact ⟨100, le_refl _, by simp [JSNum.round, JSNum.min, ofNat, isFinite],
        by simp [JSNum.round, JSNum.min, ofNat, toRat]⟩
  | fin s m =>
    right; right
    have hr := toRat_round_fin s hx
    have hform : JSNum.round (fin s m) = fin s |((⌊(if s then -m else m) + 1 / 2⌋ : ℤ) : ℚ)| :=
      rfl
    rw [hform] at hr ⊢
    exact min_fin_hundred s _ _ hr

end SkillList

namespace SkillList

open JSNum

/-! ### Inexact operations: the calculator follows binary64, not exact arithmetic -/

theorem roundHalfEven_eq_of_abs_lt {x : ℚ} {k : ℤ} (h : |x - k| < 1 / 2) :
    roundHalfEven x = k := by
  rw [abs_lt] at h
  obtain ⟨h1, h2⟩ := h
  unfold roundHalfEven
  by_cases hk : (k : ℚ) ≤ x
  · have hf : ⌊x⌋ = k := by
      rw [Int.floor_eq_iff]; constructor <;> linarith
    rw [hf, if_pos (by linarith)]
  · have hf : ⌊x⌋ = k - 1 := by
      rw [Int.floor_eq_iff]; push_cast; constructor <;> linarith
    rw [hf, if_neg (by push_cast; linarith), if_pos (by push_cast; linarith)]
    ring

/-- Rounding a magnitude in the binade `[2 ^ e, 2 ^ (e + 1))` to the nearest multiple
`k * 2 ^ (e - 52)`. -/
theorem roundMag_eq (s : Bool) {m : ℚ} (e k : ℤ) (he : -1022 ≤ e)
    (hlo : (2 : ℚ) ^ e ≤ m) (hhi : m < (2 : ℚ) ^ (e + 1))
    (hk : |m / (2 : ℚ) ^ (e - 52) - k| < 1 / 2)
    (hfin : (k : ℚ) * (2 : ℚ) ^ (e - 52) < (2 : ℚ) ^ (1024 : ℕ)) :
    roundMag s m = fin s ((k : ℚ) * (2 : ℚ) ^ (e - 52)) := by
  have hm : 0 < m := lt_of_lt_of_le (by positivity) hlo
  have hlog : Int.log 2 m = e := by
    have h1 : e ≤ Int.log 2 m :=
      (Int.zpow_le_iff_le_log (R := ℚ) (b := 2) (by norm_num) hm).1 (by exact_mod_cast hlo)
    have h2 : Int.log 2 m < e + 1 :=
      (Int.lt_zpow_iff_log_lt (R := ℚ) (b := 2) (by norm_num) hm).1 (by exact_mod_cast hhi)
    omega
  have hu : ulp m = (2 : ℚ) ^ (e - 52) := by
    unfold ulp; rw [hlog, max_eq_left he]
  unfold roundMag
  rw [if_neg hm.ne', hu, roundHalfEven_eq_of_abs_lt hk, if_neg (not_le.mpr hfin)]

theorem parseFloat_twenty_three : parseFloat (js "23") = fin false 23 := by
  have h : scanDecimal (trimStart (js "23")) = some (.dec false 23 0) := by decide
  have h2 := roundMag_natCast false 23 (by norm_num)
  simp only [parseFloat, h]
  simpa using h2

theorem parseFloat_forty : parseFloat (js "40") = fin false 40 := by
  have h : scanDecimal (trimStart (js "40")) = some (.dec false 40 0) := by decide
  have h2 := roundMag_natCast false 40 (by norm_num)
  simp only [parseFloat, h]
  simpa using h2

/-- With `completed = "23"` and `total = "40"` the calculator returns `57`: the binary64
quotient and product give `57.49999999999999…`, although `23 / 40 * 100` is exactly
`57.5`, which rounds half-up to `58`. -/
theorem calculatePercentage_twenty_three_forty :
    calculatePercentage (js "23") (js "40") = ofNat 57 ∧
      ⌊(23 : ℚ) / 40 * 100 + 1 / 2⌋ = 58 := by
  have hdiv : JSNum.div (fin false 23) (fin false 40) =
      fin false (5179139571476070 * (2 : ℚ) ^ (-53 : ℤ)) := by
    have h := roundMag_eq false (m := 23 / 40) (-1) 5179139571476070 (by norm_num)
      (by norm_num) (by norm_num) (by rw [abs_lt]; constructor <;> norm_num) (by norm_num)
    simp only [JSNum.div, Bool.xor_false]
    rw [if_neg (by norm_num), h]
    norm_num
  have hmul : JSNum.mul (fin false (5179139571476070 * (2 : ℚ) ^ (-53 : ℤ))) (ofNat 100) =
      fin false (8092405580431359 * (2 : ℚ) ^ (-47 : ℤ)) := by
    have h := roundMag_eq false (m := 5179139571476070 * (2 : ℚ) ^ (-53 : ℤ) * 100) 5
      8092405580431359 (by norm_num) (by norm_num) (by norm_num)
      (by rw [abs_lt]; constructor <;> norm_num) (by norm_num)
    simp only [JSNum.mul, ofNat, Bool.xor_false]
    push_cast
    rw [h]
    norm_num
  have hround : JSNum.round (fin false (8092405580431359 * (2 : ℚ) ^ (-47 : ℤ))) =
      fin false 57 := by
    have e : ⌊(8092405580431359 * (2 : ℚ) ^ (-47 : ℤ)) + 1 / 2⌋ = 57 := by
      rw [Int.floor_eq_iff]; constructor <;> norm_num
    simp only [JSNum.round, Bool.false_eq_true, if_false, e]
    norm_num
  have hmin : JSNum.min (fin false 57) (ofNat 100) = ofNat 57 := by
    simp only [JSNum.min, ofNat, toRat, Bool.false_eq_true, if_false]
    rw [if_pos (by norm_num)]
    norm_num
  constructor
  · unfold calculatePercentage
    simp only [parseFloat_twenty_three, parseFloat_forty]
    simp only [isNaN, isZero, Bool.or_self, Bool.false_or]
    rw [if_neg (by norm_num)]
    simp only [hdiv, hmul, hround, hmin]
  · rw [Int.floor_eq_iff]; constructor <;> norm_num

end SkillList

namespace SkillList

open JSNum

/-! ### Rounding error: the calculator against the exact formula -/

theorem abs_roundHalfEven_sub_le (x : ℚ) : |(roundHalfEven x : ℚ) - x| ≤ 1 / 2 := by
  have h1 := Int.floor_le x
  have h2 := Int.lt_floor_add_one x
  unfold roundHalfEven
  rw [abs_le]
  split_ifs <;> push_cast <;> constructor <;> linarith

/-- Rounding a magnitude below `2 ^ (E + 1)` moves it by at most half a unit in the last
place of that binade, `2 ^ (E - 53)`, and does not overflow. -/
theorem roundMag_error (s : Bool) {m : ℚ} (hm : 0 ≤ m) {E : ℤ} (hE : -1022 ≤ E)
    (hE2 : E ≤ 1022) (h : m < (2 : ℚ) ^ (E + 1)) :
    ∃ r : ℚ, roundMag s m = fin s r ∧ 0 ≤ r ∧ |r - m| ≤ (2 : ℚ) ^ (E - 53) := by
  rcases hm.eq_or_lt with h0 | hpos
  · subst h0
    exact ⟨0, by simp [roundMag], le_refl _, by simp; positivity⟩
  have hu := ulp_pos m
  have hule : ulp m ≤ (2 : ℚ) ^ (E - 52) := by
    unfold ulp
    exact zpow_le_zpow_right₀ (by norm_num) (by have := ulp_exp_le hpos hE h; omega)
  have herr : |(roundHalfEven (m / ulp m) : ℚ) * ulp m - m| ≤ (2 : ℚ) ^ (E - 53) := by
    have h1 := abs_roundHalfEven_sub_le (m / ulp m)
    have h2 : (roundHalfEven (m / ulp m) : ℚ) * ulp m - m =
        ((roundHalfEven (m / ulp m) : ℚ) - m / ulp m) * ulp m := by
      field_simp
    rw [h2, abs_mul, abs_of_pos hu]
    have h3 : (2 : ℚ) ^ (E - 53) = 1 / 2 * (2 : ℚ) ^ (E - 52) := by
      rw [show E - 53 = (E - 52) + (-1) by ring, zpow_add₀ (by norm_num : (2 : ℚ) ≠ 0)]
      norm_num; ring
    rw [h3]
    exact mul_le_mul h1 hule hu.le (by norm_num)
  have hnn : (0 : ℚ) ≤ (roundHalfEven (m / ulp m) : ℚ) * ulp m := by
    have h0 : (0 : ℤ) ≤ roundHalfEven (m / ulp m) :=
      le_roundHalfEven (by simpa using (div_pos hpos hu).le)
    exact mul_nonneg (by exact_mod_cast h0) hu.le
  have hfin : (roundHalfEven (m / ulp m) : ℚ) * ulp m < (2 : ℚ) ^ (1024 : ℕ) := by
    have h1 : (2 : ℚ) ^ (E + 1) ≤ (2 : ℚ) ^ (1023 : ℤ) :=
      zpow_le_zpow_right₀ (by norm_num) (by omega)
    have h2 : (2 : ℚ) ^ (E - 53) ≤ (2 : ℚ) ^ (969 : ℤ) :=
      zpow_le_zpow_right₀ (by norm_num) (by omega)
    have h3 : (2 : ℚ) ^ (1023 : ℤ) + (2 : ℚ) ^ (969 : ℤ) < (2 : ℚ) ^ (1024 : ℕ) := by norm_num
    have h4 := (abs_le.mp herr).2
    linarith
  refine ⟨(roundHalfEven (m / ulp m) : ℚ) * ulp m, ?_, hnn, herr⟩
  unfold roundMag
  rw [if_neg hpos.ne', if_neg (not_le.mpr hfin)]

/-- The value of `Math.min(x, 100)` for a finite `x`. -/
theorem toRat_min_fin_hundred (s : Bool) (k : ℚ) :
    (JSNum.min (fin s k) (ofNat 100)).isFinite = true ∧
      (JSNum.min (fin s k) (ofNat 100)).toRat = Min.min (fin s k).toRat 100 := by
  have h100 : (fin false ((100 : ℕ) : ℚ)).toRat = 100 := by simp [toRat]
  simp only [JSNum.min, ofNat]
  by_cases h1 : (fin s k).toRat < (fin false ((100 : ℕ) : ℚ)).toRat
  · rw [if_pos h1]
    rw [h100] at h1
    exact ⟨rfl, (min_eq_left h1.le).symm⟩
  · rw [if_neg h1]
    by_cases h2 : (fin false ((100 : ℕ) : ℚ)).toRat < (fin s k).toRat
    · rw [if_pos h2]
      rw [h100] at h2
      exact ⟨rfl, by rw [h100, min_eq_right h2.le]⟩
    · rw [if_neg h2]
      rw [h100] at h1 h2
      have heq : (fin s k).toRat = 100 := le_antisymm (not_lt.mp h2) (not_lt.mp h1)
      cases s with
      | false =>
        rw [if_neg (by simp)]
        exact ⟨rfl, by rw [h100, heq, min_self]⟩
      | true => rw [if_pos rfl]; exact ⟨rfl, by rw [heq, min_self]⟩

/-- What the calculator returns in terms of the product `x`: `+Infinity` is capped to
`100`, `-Infinity` stays, and a finite `x` gives `min(⌊x + 1/2⌋, 100)`. -/
theorem round_min_value {x : JSNum} (hx : x.WellFormed) :
    (x = inf false → JSNum.min (JSNum.round x) (ofNat 100) = ofNat 100) ∧
      (x = inf true → JSNum.min (JSNum.round x) (ofNat 100) = inf true) ∧
      (x.isFinite = true →
        (JSNum.min (JSNum.round x) (ofNat 100)).isFinite = true ∧
        (JSNum.min (JSNum.round x) (ofNat 100)).toRat =
          ((Min.min ⌊x.toRat + 1 / 2⌋ 100 : ℤ) : ℚ)) := by
  refine ⟨?_, ?_, ?_⟩
  · intro h; subst h; simp [JSNum.round, JSNum.min, ofNat]
  · intro h; subst h; rfl
  · intro hf
    cases x with
    | nan => simp [isFinite] at hf
    | inf s => simp [isFinite] at hf
    | fin s m =>
      have hr := toRat_round_fin s hx
      have hform : JSNum.round (fin s m) =
          fin s |((⌊(if s then -m else m) + 1 / 2⌋ : ℤ) : ℚ)| := rfl
      rw [hform] at hr ⊢
      obtain ⟨h1, h2⟩ := toRat_min_fin_hundred s |((⌊(if s then -m else m) + 1 / 2⌋ : ℤ) : ℚ)|
      refine ⟨h1, ?_⟩
      rw [h2, hr]
      push_cast
      rfl

/-- Rounding to the nearest integer moves by at most one when the argument moves by less
than one; capping at `100` keeps that. -/
theorem abs_min_floor_sub_le {x y : ℚ} (h : |x - y| < 1) :
    |Min.min ⌊x + 1 / 2⌋ (100 : ℤ) - Min.min ⌊y + 1 / 2⌋ (100 : ℤ)| ≤ 1 := by
  rw [abs_lt] at h
  have hx1 := Int.floor_le (x + 1 / 2)
  have hx2 := Int.lt_floor_add_one (x + 1 / 2)
  have hy1 := Int.floor_le (y + 1 / 2)
  have hy2 := Int.lt_floor_add_one (y + 1 / 2)
  have h1 : ⌊x + 1 / 2⌋ < ⌊y + 1 / 2⌋ + 2 := by
    have : ((⌊x + 1 / 2⌋ : ℤ) : ℚ) < ((⌊y + 1 / 2⌋ + 2 : ℤ) : ℚ) := by push_cast; linarith
    exact_mod_cast this
  have h2 : ⌊y + 1 / 2⌋ < ⌊x + 1 / 2⌋ + 2 := by
    have : ((⌊y + 1 / 2⌋ : ℤ) : ℚ) < ((⌊x + 1 / 2⌋ + 2 : ℤ) : ℚ) := by push_cast; linarith
    exact_mod_cast this
  rw [abs_le]
  constructor <;> omega

/-- For a quotient of magnitude below `1`, the binary64 quotient times `100` is within
`1` of the exact product (in fact within `2 ^ -46`). -/
theorem mul_div_error (s : Bool) {m n : ℚ} (hm : 0 ≤ m) (hn : 0 < n) (hlt : m < n) :
    ∃ b : ℚ, JSNum.mul (JSNum.div (fin s m) (fin false n)) (ofNat 100) = fin s b ∧ 0 ≤ b ∧
      |b - m / n * 100| < 1 := by
  have hq0 : 0 ≤ m / n := div_nonneg hm hn.le
  have hq1 : m / n < (2 : ℚ) ^ ((-1 : ℤ) + 1) := by
    rw [show ((-1 : ℤ) + 1) = 0 by norm_num, zpow_zero, div_lt_one hn]; exact hlt
  obtain ⟨a, ha, ha0, haerr⟩ := roundMag_error s hq0 (E := -1) (by norm_num) (by norm_num) hq1
  have hdiv : JSNum.div (fin s m) (fin false n) = fin s a := by
    simp only [JSNum.div, Bool.xor_false, if_neg hn.ne', ha]
  have hq1' : m / n < 1 := (div_lt_one hn).2 hlt
  have haerr2 := abs_le.mp haerr
  have h54 : (2 : ℚ) ^ ((-1 : ℤ) - 53) = 1 / 18014398509481984 := by norm_num
  rw [h54] at haerr2
  have hp1 : a * ((100 : ℕ) : ℚ) < (2 : ℚ) ^ ((6 : ℤ) + 1) := by
    push_cast; norm_num; linarith
  obtain ⟨b, hb, hb0, hberr⟩ := roundMag_error s (mul_nonneg ha0 (by positivity : (0:ℚ) ≤ ((100:ℕ):ℚ)))
    (E := 6) (by norm_num) (by norm_num) hp1
  have hmul : JSNum.mul (fin s a) (ofNat 100) = fin s b := by
    simp only [JSNum.mul, ofNat, Bool.xor_false, hb]
  have hberr2 := abs_le.mp hberr
  have h47 : (2 : ℚ) ^ ((6 : ℤ) - 53) = 1 / 140737488355328 := by norm_num
  rw [h47] at hberr2
  push_cast at hberr2
  refine ⟨b, by rw [hdiv, hmul], hb0, ?_⟩
  rw [abs_lt]
  constructor <;> linarith

end SkillList

namespace SkillList

open JSNum

/-- The capped, rounded binary64 product against the exact formula, on finite operands
`±m` and `n > 0`: within one of it as soon as `-n < ±m`, and exactly `100` as soon as
`n ≤ ±m`. -/
theorem round_min_mul_div (s : Bool) {m n : ℚ} (hm : 0 ≤ m) (hn : 0 < n) :
    ((-n < (fin s m).toRat) →
      (JSNum.min (JSNum.round (JSNum.mul (JSNum.div (fin s m) (fin false n)) (ofNat 100)))
        (ofNat 100)).isFinite = true ∧
      ∃ p : ℤ,
        (JSNum.min (JSNum.round (JSNum.mul (JSNum.div (fin s m) (fin false n)) (ofNat 100)))
          (ofNat 100)).toRat = p ∧
        |p - percentDoneExact (fin s m).toRat n| ≤ 1) ∧
    (n ≤ (fin s m).toRat →
      JSNum.min (JSNum.round (JSNum.mul (JSNum.div (fin s m) (fin false n)) (ofNat 100)))
        (ofNat 100) = ofNat 100) := by
  have hover : n ≤ (fin s m).toRat →
      JSNum.min (JSNum.round (JSNum.mul (JSNum.div (fin s m) (fin false n)) (ofNat 100)))
        (ofNat 100) = ofNat 100 := by
    intro hle
    have hs : s = false := by
      cases s
      · rfl
      · simp only [toRat, if_true] at hle; linarith
    subst hs
    simp only [toRat, Bool.false_eq_true, if_false] at hle
    exact round_min_of_ge (mul_hundred_of_ge_one (div_ge_one hn hle))
  refine ⟨fun hgt => ?_, hover⟩
  by_cases hle : n ≤ (fin s m).toRat
  · rw [hover hle]
    refine ⟨rfl, 100, by simp [ofNat, toRat], ?_⟩
    have hy : (100 : ℚ) ≤ (fin s m).toRat / n * 100 := by
      have : 1 ≤ (fin s m).toRat / n := (one_le_div hn).2 hle
      linarith
    have hfl : (100 : ℤ) ≤ ⌊(fin s m).toRat / n * 100 + 1 / 2⌋ :=
      Int.le_floor.mpr (by push_cast; linarith)
    unfold percentDoneExact
    rw [min_eq_right hfl]
    simp
  · have hlt : m < n := by
      cases s
      · simpa [toRat] using hle
      · simp only [toRat, if_true] at hgt; linarith
    obtain ⟨b, hb, hb0, hberr⟩ := mul_div_error s hm hn hlt
    rw [hb]
    have hxy : |(fin s b).toRat - (fin s m).toRat / n * 100| < 1 := by
      cases s
      · simpa [toRat] using hberr
      · simp only [toRat, if_true]
        have : -b - -m / n * 100 = -(b - m / n * 100) := by ring
        rw [this, abs_neg]; exact hberr
    obtain ⟨_, _, h3⟩ := round_min_value (x := fin s b) hb0
    obtain ⟨hf, hv⟩ := h3 rfl
    refine ⟨hf, _, hv, ?_⟩
    unfold percentDoneExact
    exact abs_min_floor_sub_le hxy

end SkillList

namespace SkillList

open JSNum

/-! ### Claims about `calculatePercentage` -/

/-- C1 (counterexample): with `completed = "-5"` and `total = "10"` the calculator
returns `-50`, which is not an integer between `0` and `100`. -/
theorem calculatePercentage_negative_counterexample :
    calculatePercentage (js "-5") (js "10") = JSNum.fin true 50 ∧
      (calculatePercentage (js "-5") (js "10")).toRat = -50 ∧
      ¬ IsPercent (calculatePercentage (js "-5") (js "10")) := by
  rw [calculatePercentage_minus_five_ten]
  refine ⟨rfl, by simp [toRat], ?_⟩
  rintro ⟨_, p, hp0, _, hp⟩
  have h50 : ((-50 : ℤ) : ℚ) = (p : ℚ) := by
    rw [← hp]; simp [toRat]
  have : (-50 : ℤ) = p := by exact_mod_cast h50
  omega

/-- C1 (amended): for every pair of input texts `calculatePercentage` returns `NaN`,
`-Infinity` or an integer `p ≤ 100` (the result is capped from above only); when the
leading numeric portion of each text is absent or is a finite number without a minus
sign, it returns an integer `p` with `0 ≤ p ≤ 100`. -/
theorem calculatePercentage_isPercent (completed total : JSString) :
    (calculatePercentage completed total = JSNum.nan ∨
      calculatePercentage completed total = JSNum.inf true ∨
      ∃ p : ℤ, p ≤ 100 ∧ (calculatePercentage completed total).isFinite = true ∧
        (calculatePercentage completed total).toRat = p) ∧
    ((parseFloat completed).unsignedOrNaN = true → (parseFloat total).unsignedOrNaN = true →
      IsPercent (calculatePercentage completed total)) := by
  constructor
  · by_cases hg : (parseFloat completed).isNaN = true ∨ (parseFloat total).isNaN = true ∨
        (parseFloat total).isZero = true
    · rw [calculatePercentage_guard hg]
      exact Or.inr (Or.inr ⟨0, by norm_num, rfl, by simp [ofNat, toRat]⟩)
    · simp only [not_or, Bool.not_eq_true] at hg
      rw [calculatePercentage_of_guard_false hg.1 hg.2.1 hg.2.2]
      exact round_min_le_hundred (mul_wellFormed
        (div_wellFormed (parseFloat_wellFormed _) (parseFloat_wellFormed _))
        (by simp [ofNat, JSNum.WellFormed]))
  · intro hc ht
    cases hpc : parseFloat completed with
    | nan =>
      rw [calculatePercentage_guard (Or.inl (by rw [hpc]; rfl))]
      exact isPercent_ofNat (by norm_num)
    | inf s => rw [hpc] at hc; simp [unsignedOrNaN] at hc
    | fin s m =>
      cases hpt : parseFloat total with
      | nan =>
        rw [calculatePercentage_guard (Or.inr (Or.inl (by rw [hpt]; rfl)))]
        exact isPercent_ofNat (by norm_num)
      | inf s2 => rw [hpt] at ht; simp [unsignedOrNaN] at ht
      | fin s2 n =>
        rw [hpc] at hc; rw [hpt] at ht
        simp only [unsignedOrNaN, Bool.not_eq_true'] at hc ht
        subst hc; subst ht
        by_cases hn0 : n = 0
        · rw [calculatePercentage_guard (Or.inr (Or.inr (by rw [hpt]; simp [isZero, hn0])))]
          exact isPercent_ofNat (by norm_num)
        · rw [calculatePercentage_of_guard_false (by rw [hpc]; rfl) (by rw [hpt]; rfl)
            (by rw [hpt]; simp [isZero, hn0]), hpc, hpt]
          exact isPercent_round_min (mul_hundred_unsigned
            (div_unsigned (parseFloat_mag_nonneg hpc) (parseFloat_mag_nonneg hpt) hn0))

/-- C1 (witness): the amended bound at `completed = "5"`, `total = "10"`. -/
theorem calculatePercentage_isPercent_witness :
    (parseFloat (js "5")).unsignedOrNaN = true ∧
      (parseFloat (js "10")).unsignedOrNaN = true ∧
      IsPercent (calculatePercentage (js "5") (js "10")) :=
  ⟨by rw [parseFloat_five]; rfl, by rw [parseFloat_ten]; rfl,
    (calculatePercentage_isPercent (js "5") (js "10")).2 (by rw [parseFloat_five]; rfl)
      (by rw [parseFloat_ten]; rfl)⟩

/-- C2 (counterexample): `"23"` and `"40"` parse to the finite numbers `23` and `40 > 0`,
the calculator returns `57`, and the exact formula `min(round(23 / 40 * 100), 100)` is
`58` (the exact product is `57.5`, the binary64 product `57.49999999999999…`). -/
theorem calculatePercentage_exact_counterexample :
    (parseFloat (js "23")).isFinite = true ∧ (parseFloat (js "40")).isFinite = true ∧
      0 < (parseFloat (js "40")).toRat ∧
      (calculatePercentage (js "23") (js "40")).toRat = 57 ∧
      percentDoneExact (parseFloat (js "23")).toRat (parseFloat (js "40")).toRat = 58 := by
  rw [calculatePercentage_twenty_three_forty.1, parseFloat_twenty_three, parseFloat_forty]
  refine ⟨rfl, rfl, by norm_num [toRat], by simp [ofNat, toRat], ?_⟩
  have h58 := calculatePercentage_twenty_three_forty.2
  simp only [toRat, Bool.false_eq_true, if_false, percentDoneExact]
  rw [h58]
  decide

/-- C2 (amended): when both texts parse to finite numbers `cn`, `tn` with `tn > 0`, the
calculator works on the binary64 product `x` of `100` and the binary64 quotient
`cn / tn`: it returns `100` for `x = +Infinity`, `-Infinity` for `x = -Infinity`, and the
integer `min(⌊x + 1/2⌋, 100)` for a finite `x`.  Whenever `cn > -tn` (so for every
`cn ≥ 0`) the result is an integer within `1` of the exact
`min(round(cn / tn * 100), 100)`, and whenever `cn ≥ tn` it is exactly `100`. -/
theorem calculatePercentage_binary64 (c t : JSString)
    (hc : (parseFloat c).isFinite = true) (ht : (parseFloat t).isFinite = true)
    (hpos : 0 < (parseFloat t).toRat) :
    ((JSNum.mul (JSNum.div (parseFloat c) (parseFloat t)) (JSNum.ofNat 100) = JSNum.inf false →
        calculatePercentage c t = JSNum.ofNat 100) ∧
      (JSNum.mul (JSNum.div (parseFloat c) (parseFloat t)) (JSNum.ofNat 100) = JSNum.inf true →
        calculatePercentage c t = JSNum.inf true) ∧
      ((JSNum.mul (JSNum.div (parseFloat c) (parseFloat t)) (JSNum.ofNat 100)).isFinite = true →
        (calculatePercentage c t).isFinite = true ∧
        (calculatePercentage c t).toRat =
          ((Min.min
            ⌊(JSNum.mul (JSNum.div (parseFloat c) (parseFloat t)) (JSNum.ofNat 100)).toRat
              + 1 / 2⌋ 100 : ℤ) : ℚ))) ∧
    (-(parseFloat t).toRat < (parseFloat c).toRat →
      (calculatePercentage c t).isFinite = true ∧
      ∃ p : ℤ, (calculatePercentage c t).toRat = p ∧
        |p - percentDoneExact (parseFloat c).toRat (parseFloat t).toRat| ≤ 1) ∧
    ((parseFloat t).toRat ≤ (parseFloat c).toRat →
      calculatePercentage c t = JSNum.ofNat 100) := by
  cases hpc : parseFloat c with
  | nan => rw [hpc] at hc; simp [isFinite] at hc
  | inf s => rw [hpc] at hc; simp [isFinite] at hc
  | fin s m =>
    cases hpt : parseFloat t with
    | nan => rw [hpt] at ht; simp [isFinite] at ht
    | inf s2 => rw [hpt] at ht; simp [isFinite] at ht
    | fin s2 n =>
      have hm := parseFloat_mag_nonneg hpc
      have hn := parseFloat_mag_nonneg hpt
      rw [hpt] at hpos
      have hs2 : s2 = false := by
        cases s2
        · rfl
        · simp only [toRat, if_true] at hpos; linarith
      subst hs2
      have hn0 : 0 < n := by simpa [toRat] using hpos
      have hcalc : calculatePercentage c t =
          JSNum.min (JSNum.round (JSNum.mul (JSNum.div (fin s m) (fin false n)) (ofNat 100)))
            (ofNat 100) := by
        rw [calculatePercentage_of_guard_false (by rw [hpc]; rfl) (by rw [hpt]; rfl)
          (by rw [hpt]; simp [isZero, hn0.ne']), hpc, hpt]
      have hwf : (JSNum.mul (JSNum.div (fin s m) (fin false n)) (ofNat 100)).WellFormed :=
        mul_wellFormed (div_wellFormed hm hn) (by simp [ofNat, JSNum.WellFormed])
      have hn' : (fin false n).toRat = n := by simp [toRat]
      rw [hcalc, hn']
      exact ⟨round_min_value hwf, (round_min_mul_div s hm hn0).1, (round_min_mul_div s hm hn0).2⟩

/-- C2 (witness): the amended statement at `c = "23"`, `t = "40"`: the result `57` is an
integer within `1` of the exact value. -/
theorem calculatePercentage_binary64_witness :
    (parseFloat (js "23")).isFinite = true ∧ (parseFloat (js "40")).isFinite = true ∧
      0 < (parseFloat (js "40")).toRat ∧
      -(parseFloat (js "40")).toRat < (parseFloat (js "23")).toRat ∧
      ∃ p : ℤ, (calculatePercentage (js "23") (js "40")).toRat = p ∧
        |p - percentDoneExact (parseFloat (js "23")).toRat (parseFloat (js "40")).toRat| ≤ 1 := by
  have h1 : (parseFloat (js "23")).isFinite = true := by rw [parseFloat_twenty_three]; rfl
  have h2 : (parseFloat (js "40")).isFinite = true := by rw [parseFloat_forty]; rfl
  have h3 : 0 < (parseFloat (js "40")).toRat := by rw [parseFloat_forty]; norm_num [toRat]
  have h4 : -(parseFloat (js "40")).toRat < (parseFloat (js "23")).toRat := by
    rw [parseFloat_twenty_three, parseFloat_forty]; norm_num [toRat]
  exact ⟨h1, h2, h3, h4,
    ((calculatePercentage_binary64 (js "23") (js "40") h1 h2 h3).2.1 h4).2⟩

/-- C3: `calculatePercentage` returns `0` when `completed` or `total` has no leading
numeric portion or `total` is numerically zero; in particular for every `x` against
`"0"`, for `""` against `"10"` and for `"0"` against `"10"`. -/
theorem calculatePercentage_zero :
    (∀ completed total : JSString,
      (scanDecimal (trimStart completed) = none ∨ scanDecimal (trimStart total) = none ∨
        (parseFloat total).isZero = true) →
      calculatePercentage completed total = JSNum.ofNat 0) ∧
    (∀ x : JSString, calculatePercentage x (js "0") = JSNum.ofNat 0) ∧
    calculatePercentage (js "") (js "10") = JSNum.ofNat 0 ∧
    calculatePercentage (js "0") (js "10") = JSNum.ofNat 0 := by
  refine ⟨?_, ?_, ?_, ?_⟩
  · intro completed total h
    apply calculatePercentage_guard
    rcases h with h | h | h
    · left; rw [(parseFloat_nan_iff completed).2 h]; rfl
    · right; left; rw [(parseFloat_nan_iff total).2 h]; rfl
    · right; right; exact h
  · intro x
    exact calculatePercentage_guard (Or.inr (Or.inr (by rw [parseFloat_zero]; simp [isZero])))
  · exact calculatePercentage_guard (Or.inl (by rw [parseFloat_empty]; rfl))
  · unfold calculatePercentage
    simp only [parseFloat_zero, parseFloat_ten]
    have e : ⌊(2 : ℚ)⁻¹⌋ = 0 := by
      rw [Int.floor_eq_iff]; constructor <;> norm_num
    simp [isNaN, isZero, JSNum.div, JSNum.mul, JSNum.round, JSNum.min, roundMag, ofNat, toRat, e]

/-- C3 (witness): a non-numeric `completed` text gives `0`. -/
theorem calculatePercentage_zero_witness :
    scanDecimal (trimStart (js "abc")) = none ∧
      calculatePercentage (js "abc") (js "10") = JSNum.ofNat 0 :=
  ⟨by decide, calculatePercentage_zero.1 (js "abc") (js "10") (Or.inl (by decide))⟩

end SkillList

namespace SkillList
namespace JSON

/-! ### Round trip of string literals -/

theorem hexVal_hexDigit (n : Nat) (h : n < 16) : hexVal (hexDigit n) = some n := by
  interval_cases n <;> rfl

theorem hex4_unicodeEscape (c : Nat) (h : c < 65536) :
    hex4 (hexDigit (c / 4096 % 16)) (hexDigit (c / 256 % 16)) (hexDigit (c / 16 % 16))
      (hexDigit (c % 16)) = some c := by
  unfold hex4
  rw [hexVal_hexDigit _ (Nat.mod_lt _ (by norm_num)), hexVal_hexDigit _ (Nat.mod_lt _ (by norm_num)),
    hexVal_hexDigit _ (Nat.mod_lt _ (by norm_num)), hexVal_hexDigit _ (Nat.mod_lt _ (by norm_num))]
  simp only [Option.some.injEq]
  omega

theorem parseChars_closing (t : JSString) : parseChars (0x22 :: t) = some ([], t) := by
  rw [parseChars.eq_def]; simp

/-- Reading an escape `\uXXXX` gives back the code unit. -/
theorem parseChars_unicodeEscape (c : Nat) (h : c < 65536) (t : JSString) :
    parseChars (unicodeEscape c ++ t) = (parseChars t).map fun p => (c :: p.1, p.2) := by
  rw [parseChars.eq_def]
  simp [unicodeEscape, hex4_unicodeEscape c h]

/-- Reading a two-character escape gives back the code unit it stands for. -/
theorem parseChars_escape (e u : Nat)
    (h : (e, u) ∈ [(0x22, 0x22), (0x5C, 0x5C), (0x62, 0x08), (0x66, 0x0C), (0x6E, 0x0A),
      (0x72, 0x0D), (0x74, 0x09)]) (t : JSString) :
    parseChars (0x5C :: e :: t) = (parseChars t).map fun p => (u :: p.1, p.2) := by
  rw [parseChars.eq_def]
  simp only [List.mem_cons, Prod.mk.injEq, List.mem_singleton, List.not_mem_nil, or_false] at h
  rcases h with ⟨rfl, rfl⟩ | ⟨rfl, rfl⟩ | ⟨rfl, rfl⟩ | ⟨rfl, rfl⟩ | ⟨rfl, rfl⟩ | ⟨rfl, rfl⟩ |
    ⟨rfl, rfl⟩ <;> simp

/-- Reading a copied code unit gives back the code unit. -/
theorem parseChars_copy (c : Nat) (h1 : c ≠ 0x22) (h2 : c ≠ 0x5C) (h3 : ¬ c < 0x20)
    (t : JSString) :
    parseChars (c :: t) = (parseChars t).map fun p => (c :: p.1, p.2) := by
  rw [parseChars.eq_def]
  simp [h1, h2, h3]

theorem surrogate_bounds {c : Nat} (h : (isLead c || isTrail c) = true) :
    0xD800 ≤ c ∧ c ≤ 0xDFFF := by
  simp only [isLead, isTrail, Bool.or_eq_true, Bool.and_eq_true, decide_eq_true_eq] at h
  omega

theorem quoteChars_escape (c e : Nat)
    (h : (c, e) ∈ [(0x08, 0x62), (0x09, 0x74), (0x0A, 0x6E), (0x0C, 0x66), (0x0D, 0x72),
      (0x22, 0x22), (0x5C, 0x5C)]) (r : JSString) :
    quoteChars (c :: r) = 0x5C :: e :: quoteChars r := by
  rw [quoteChars.eq_def]
  simp only [List.mem_cons, Prod.mk.injEq, List.mem_singleton, List.not_mem_nil, or_false] at h
  rcases h with ⟨rfl, rfl⟩ | ⟨rfl, rfl⟩ | ⟨rfl, rfl⟩ | ⟨rfl, rfl⟩ | ⟨rfl, rfl⟩ | ⟨rfl, rfl⟩ |
    ⟨rfl, rfl⟩ <;> simp

/-- `parseChars` reads back what `quoteChars` wrote, up to the closing quote. -/
theorem parseChars_quoteChars (s rest : JSString) :
    parseChars (quoteChars s ++ 0x22 :: rest) = some (s, rest) := by
  induction s using quoteChars.induct with
  | case1 => unfold quoteChars; exact parseChars_closing rest
  | case2 r ih =>
    rw [quoteChars_escape 0x08 0x62 (by simp), List.cons_append, List.cons_append,
      parseChars_escape 0x62 0x08 (by simp), ih]; rfl
  | case3 r _ ih =>
    rw [quoteChars_escape 0x09 0x74 (by simp), List.cons_append, List.cons_append,
      parseChars_escape 0x74 0x09 (by simp), ih]; rfl
  | case4 r _ _ ih =>
    rw [quoteChars_escape 0x0A 0x6E (by simp), List.cons_append, List.cons_append,
      parseChars_escape 0x6E 0x0A (by simp), ih]; rfl
  | case5 r _ _ _ ih =>
    rw [quoteChars_escape 0x0C 0x66 (by simp), List.cons_append, List.cons_append,
      parseChars_escape 0x66 0x0C (by simp), ih]; rfl
  | case6 r _ _ _ _ ih =>
    rw [quoteChars_escape 0x0D 0x72 (by simp), List.cons_append, List.cons_append,
      parseChars_escape 0x72 0x0D (by simp), ih]; rfl
  | case7 r _ _ _ _ _ ih =>
    rw [quoteChars_escape 0x22 0x22 (by simp), List.cons_append, List.cons_append,
      parseChars_escape 0x22 0x22 (by simp), ih]; rfl
  | case8 r _ _ _ _ _ _ ih =>
    rw [quoteChars_escape 0x5C 0x5C (by simp), List.cons_append, List.cons_append,
      parseChars_escape 0x5C 0x5C (by simp), ih]; rfl
  | case9 c r h1 h2 h3 h4 h5 h6 h7 h8 ih =>
    have hq : quoteChars (c :: r) = unicodeEscape c ++ quoteChars r := by
      rw [quoteChars.eq_def]; simp [h1, h2, h3, h4, h5, h6, h7, h8]
    rw [hq, List.append_assoc, parseChars_unicodeEscape c (by omega), ih]; rfl
  | case10 c h1 h2 h3 h4 h5 h6 h7 h8 d r2 hp ih =>
    have hq : quoteChars (c :: d :: r2) = c :: d :: quoteChars r2 := by
      rw [quoteChars.eq_def]; simp [h1, h2, h3, h4, h5, h6, h7, h8, hp]
    have hd : 0xDC00 ≤ d := by
      simp only [nextIsTrail, isTrail, Bool.and_eq_true, decide_eq_true_eq] at hp
      omega
    rw [hq, List.cons_append, List.cons_append, parseChars_copy c h6 h7 h8,
      parseChars_copy d (by omega) (by omega) (by omega), ih]; rfl
  | case11 c h1 h2 h3 h4 h5 h6 h7 h8 hp => simp [nextIsTrail] at hp
  | case12 c r h1 h2 h3 h4 h5 h6 h7 h8 hp hs ih =>
    have hq : quoteChars (c :: r) = unicodeEscape c ++ quoteChars r := by
      rw [quoteChars.eq_def]; simp only [h1, h2, h3, h4, h5, h6, h7, h8, hp, hs, if_false, if_true]
      simp
    have hb := surrogate_bounds hs
    rw [hq, List.append_assoc, parseChars_unicodeEscape c (by omega), ih]; rfl
  | case13 c r h1 h2 h3 h4 h5 h6 h7 h8 hp hs ih =>
    have hq : quoteChars (c :: r) = c :: quoteChars r := by
      rw [quoteChars.eq_def]; simp only [h1, h2, h3, h4, h5, h6, h7, h8, hp, hs, if_false]
      simp
    rw [hq, List.cons_append, parseChars_copy c h6 h7 h8, ih]; rfl

/-- A string literal reads back as the string it quotes. -/
theorem parseChars_quoteJSONString (s rest : JSString) :
    ∃ t, quoteJSONString s ++ rest = 0x22 :: t ∧ parseChars t = some (s, rest) :=
  ⟨quoteChars s ++ 0x22 :: rest, by simp [quoteJSONString], parseChars_quoteChars s rest⟩

end JSON
end SkillList

namespace SkillList
namespace JSON

/-! ### The depth bound of `JSON.parse` is never exhausted -/

theorem length_skipWs_le (cs : JSString) : (skipWs cs).length ≤ cs.length :=
  (List.dropWhile_suffix _).length_le

theorem length_span_snd_le (p : Nat → Bool) (l : JSString) : (l.span p).2.length ≤ l.length := by
  rw [List.span_eq_take_drop]
  exact (List.dropWhile_suffix _).length_le

theorem length_tail_le (l : JSString) : l.tail.length ≤ l.length := by
  cases l <;> simp

theorem map_cons_eq_some {t s r : JSString} {u : Nat}
    (h : (parseChars t).map (fun p => (u :: p.1, p.2)) = some (s, r)) :
    ∃ s2, parseChars t = some (s2, r) := by
  cases hp : parseChars t with
  | none => rw [hp] at h; simp at h
  | some p =>
    rw [hp] at h
    simp only [Option.map_some', Option.some.injEq, Prod.mk.injEq] at h
    exact ⟨p.1, by rw [← h.2]⟩

/-- What `parseChars` leaves is no longer than what it was given. -/
theorem parseChars_length_le (t : JSString) :
    ∀ s r : JSString, parseChars t = some (s, r) → r.length ≤ t.length := by
  induction t using parseChars.induct with
  | case1 => intro s r h; rw [parseChars.eq_def] at h; simp at h
  | case2 r0 =>
    intro s r h
    rw [parseChars_closing] at h
    simp only [Option.some.injEq, Prod.mk.injEq] at h
    rw [← h.2]; simp
  | case3 => intro s r h; rw [parseChars.eq_def] at h; simp at h
  | case4 r1 _ ih =>
    intro s r h
    rw [parseChars_escape 0x22 0x22 (by simp)] at h
    obtain ⟨s2, h2⟩ := map_cons_eq_some h
    have := ih s2 r h2
    simp only [List.length_cons]; omega
  | case5 r1 _ _ ih =>
    intro s r h
    rw [parseChars_escape 0x5C 0x5C (by simp)] at h
    obtain ⟨s2, h2⟩ := map_cons_eq_some h
    have := ih s2 r h2
    simp only [List.length_cons]; omega
  | case6 r1 _ _ _ ih =>
    intro s r h
    rw [parseChars.eq_def] at h
    simp only [show ((0x5C : Nat) = 0x22) = False by simp, show ((0x2F : Nat) = 0x22) = False by simp,
      show ((0x2F : Nat) = 0x5C) = False by simp, if_false, if_true] at h
    obtain ⟨s2, h2⟩ := map_cons_eq_some h
    have := ih s2 r h2
    simp only [List.length_cons]; omega
  | case7 r1 _ _ _ _ ih =>
    intro s r h
    rw [parseChars_escape 0x62 0x08 (by simp)] at h
    obtain ⟨s2, h2⟩ := map_cons_eq_some h
    have := ih s2 r h2
    simp only [List.length_cons]; omega
  | case8 r1 _ _ _ _ _ ih =>
    intro s r h
    rw [parseChars_escape 0x66 0x0C (by simp)] at h
    obtain ⟨s2, h2⟩ := map_cons_eq_some h
    have := ih s2 r h2
    simp only [List.length_cons]; omega
  | case9 r1 _ _ _ _ _ _ ih =>
    intro s r h
    rw [parseChars_escape 0x6E 0x0A (by simp)] at h
    obtain ⟨s2, h2⟩ := map_cons_eq_some h
    have := ih s2 r h2
    simp only [List.length_cons]; omega
  | case10 r1 _ _ _ _ _ _ _ ih =>
    intro s r h
    rw [parseChars_escape 0x72 0x0D (by simp)] at h
    obtain ⟨s2, h2⟩ := map_cons_eq_some h
    have := ih s2 r h2
    simp only [List.length_cons]; omega
  | case11 r1 _ _ _ _ _ _ _ _ ih =>
    intro s r h
    rw [parseChars_escape 0x74 0x09 (by simp)] at h
    obtain ⟨s2, h2⟩ := map_cons_eq_some h
    have := ih s2 r h2
    simp only [List.length_cons]; omega
  | case12 a b c2 d r2 u hu _ _ _ _ _ _ _ _ _ ih =>
    intro s r h
    rw [parseChars.eq_def] at h
    simp only [show ((0x5C : Nat) = 0x22) = False by simp, show ((0x75 : Nat) = 0x22) = False by simp,
      show ((0x75 : Nat) = 0x5C) = False by simp, show ((0x75 : Nat) = 0x2F) = False by simp,
      show ((0x75 : Nat) = 0x62) = False by simp, show ((0x75 : Nat) = 0x66) = False by simp,
      show ((0x75 : Nat) = 0x6E) = False by simp, show ((0x75 : Nat) = 0x72) = False by simp,
      show ((0x75 : Nat) = 0x74) = False by simp, if_false, if_true, hu] at h
    obtain ⟨s2, h2⟩ := map_cons_eq_some h
    have := ih s2 r h2
    simp only [List.length_cons]; omega
  | case13 a b c2 d r2 hu =>
    intro s r h
    rw [parseChars.eq_def] at h
    simp [hu] at h
  | case14 r1 hr =>
    intro s r h
    rw [parseChars.eq_def] at h
    simp only [show ((0x5C : Nat) = 0x22) = False by simp, show ((0x75 : Nat) = 0x22) = False by simp,
      show ((0x75 : Nat) = 0x5C) = False by simp, show ((0x75 : Nat) = 0x2F) = False by simp,
      show ((0x75 : Nat) = 0x62) = False by simp, show ((0x75 : Nat) = 0x66) = False by simp,
      show ((0x75 : Nat) = 0x6E) = False by simp, show ((0x75 : Nat) = 0x72) = False by simp,
      show ((0x75 : Nat) = 0x74) = False by simp, if_false, if_true] at h
    cases h
  | case15 e r1 h1 h2 h3 h4 h5 h6 h7 h8 h9 =>
    intro s r h
    rw [parseChars.eq_def] at h
    simp [h1, h2, h3, h4, h5, h6, h7, h8, h9] at h
  | case16 c r0 h1 h2 h3 =>
    intro s r h
    rw [parseChars.eq_def] at h
    simp [h1, h2, h3] at h
  | case17 c r0 h1 h2 h3 ih =>
    intro s r h
    rw [parseChars_copy c h1 h2 h3] at h
    obtain ⟨s2, h2⟩ := map_cons_eq_some h
    have := ih s2 r h2
    simp only [List.length_cons]; omega

end JSON
end SkillList

namespace SkillList
namespace JSON

theorem length_ite_tail_le (c : Prop) [Decidable c] (l : JSString) :
    (if c then l.tail else l).length ≤ l.length := by
  split_ifs
  · exact length_tail_le l
  · exact le_refl _

theorem parseNumber_length_le (cs : JSString) (n : JSNum) (r : JSString)
    (h : parseNumber cs = some (n, r)) : r.length ≤ cs.length := by
  have h0 : (if cs.head? = some 45 then cs.tail else cs).length ≤ cs.length :=
    length_ite_tail_le _ _
  generalize hr0 : (if cs.head? = some 45 then cs.tail else cs) = r0 at h0
  have h1 : (if r0.head? = some 48 then r0.tail else (r0.span isDigit).2).length ≤ r0.length := by
    split_ifs
    · exact length_tail_le _
    · exact length_span_snd_le _ _
  generalize hr1 : (if r0.head? = some 48 then r0.tail else (r0.span isDigit).2) = r1 at h1
  have h2 : (if r1.head? = some 46 then (r1.tail.span isDigit).2 else r1).length ≤ r1.length := by
    split_ifs
    · exact le_trans (length_span_snd_le _ _) (length_tail_le _)
    · exact le_refl _
  generalize hr2 : (if r1.head? = some 46 then (r1.tail.span isDigit).2 else r1) = r2 at h2
  have h3 : (if r2.tail.head? = some 43 ∨ r2.tail.head? = some 45 then r2.tail.tail
      else r2.tail).length ≤ r2.length := by
    split_ifs
    · exact le_trans (length_tail_le _) (length_tail_le _)
    · exact length_tail_le _
  generalize hr3 : (if r2.tail.head? = some 43 ∨ r2.tail.head? = some 45 then r2.tail.tail
      else r2.tail) = r3 at h3
  have h4 := length_span_snd_le isDigit r3
  unfold parseNumber at h
  simp only [hr0, hr1, hr2, hr3] at h
  split_ifs at h
  all_goals
    simp only [Option.some.injEq, Prod.mk.injEq] at h
    rw [← h.2]
    omega

end JSON
end SkillList

namespace SkillList
namespace JSON

theorem parseValue_succ_fuelIndependent (f : Nat)
    (hE : ∀ acc, FuelIndependent (fun g cs => parseElements g cs acc) f)
    (hM : ∀ acc, FuelIndependent (fun g cs => parseMembers g cs acc) f) :
    FuelIndependent parseValue (f + 1) := by
  intro cs v r h
  rw [parseValue] at h
  cases hsk : skipWs cs with
  | nil => rw [hsk] at h; simp at h
  | cons c r0 =>
    have hws := length_skipWs_le cs
    rw [hsk] at hws h
    simp only [List.length_cons] at hws
    simp only at h
    -- every non-recursive branch is the same expression for every positive bound
    have same : ∀ g, parseValue (g + 1) cs =
        if c = 0x22 then (parseChars r0).map fun p => (.str p.1, p.2)
        else if c = 0x5B then
          match skipWs r0 with
          | [] => none
          | d :: r1 => if d = 0x5D then some (.arr [], r1) else parseElements g r0 []
        else if c = 0x7B then
          match skipWs r0 with
          | [] => none
          | d :: r1 => if d = 0x7D then some (.obj [], r1) else parseMembers g r0 []
        else if startsWith (js "true") (c :: r0) then some (.bool true, r0.drop 3)
        else if startsWith (js "false") (c :: r0) then some (.bool false, r0.drop 4)
        else if startsWith (js "null") (c :: r0) then some (.null, r0.drop 3)
        else if c = 45 ∨ isDigit c then (parseNumber (c :: r0)).map fun p => (.num p.1, p.2)
        else none := by
      intro g; rw [parseValue, hsk]; try rfl
    have pos : ∀ g, cs.length - r.length < g → ∃ g2, g = g2 + 1 ∧ cs.length - r.length ≤ g2 :=
      fun g hg => ⟨g - 1, by omega, by omega⟩
    by_cases h1 : c = 0x22
    · rw [if_pos h1] at h
      cases hp : parseChars r0 with
      | none => rw [hp] at h; simp at h
      | some p =>
        have hl := parseChars_length_le r0 p.1 p.2 hp
        rw [hp] at h
        simp only [Option.map_some', Option.some.injEq, Prod.mk.injEq] at h
        refine ⟨by rw [← h.2]; omega, fun g hg => ?_⟩
        obtain ⟨g2, rfl, _⟩ := pos g hg
        rw [same, if_pos h1, hp]
        simp only [Option.map_some', h.1, h.2]
    rw [if_neg h1] at h
    by_cases h2 : c = 0x5B
    · rw [if_pos h2] at h
      cases hs2 : skipWs r0 with
      | nil => rw [hs2] at h; simp at h
      | cons d r1 =>
        have hws2 := length_skipWs_le r0
        rw [hs2] at hws2 h
        simp only [List.length_cons] at hws2
        simp only at h
        by_cases hd : d = 0x5D
        · rw [if_pos hd] at h
          simp only [Option.some.injEq, Prod.mk.injEq] at h
          refine ⟨by rw [← h.2]; omega, fun g hg => ?_⟩
          obtain ⟨g2, rfl, _⟩ := pos g hg
          rw [same, if_neg h1, if_pos h2, hs2]
          simp only [if_pos hd, h.1, h.2]
        · rw [if_neg hd] at h
          obtain ⟨hl, hg⟩ := hE [] r0 v r h
          refine ⟨by omega, fun g hg2 => ?_⟩
          obtain ⟨g2, rfl, hg3⟩ := pos g hg2
          rw [same, if_neg h1, if_pos h2, hs2]
          simp only [if_neg hd]
          exact hg g2 (by omega)
    rw [if_neg h2] at h
    by_cases h3 : c = 0x7B
    · rw [if_pos h3] at h
      cases hs2 : skipWs r0 with
      | nil => rw [hs2] at h; simp at h
      | cons d r1 =>
        have hws2 := length_skipWs_le r0
        rw [hs2] at hws2 h
        simp only [List.length_cons] at hws2
        simp only at h
        by_cases hd : d = 0x7D
        · rw [if_pos hd] at h
          simp only [Option.some.injEq, Prod.mk.injEq] at h
          refine ⟨by rw [← h.2]; omega, fun g hg => ?_⟩
          obtain ⟨g2, rfl, _⟩ := pos g hg
          rw [same, if_neg h1, if_neg h2, if_pos h3, hs2]
          simp only [if_pos hd, h.1, h.2]
        · rw [if_neg hd] at h
          obtain ⟨hl, hg⟩ := hM [] r0 v r h
          refine ⟨by omega, fun g hg2 => ?_⟩
          obtain ⟨g2, rfl, hg3⟩ := pos g hg2
          rw [same, if_neg h1, if_neg h2, if_pos h3, hs2]
          simp only [if_neg hd]
          exact hg g2 (by omega)
    rw [if_neg h3] at h
    -- the remaining branches do not recurse
    have hrest : ∀ g, parseValue (g + 1) cs = some (v, r) := by
      intro g; rw [same, if_neg h1, if_neg h2, if_neg h3]; exact h
    refine ⟨?_, fun g hg => ?_⟩
    · split_ifs at h with h4 h5 h6 h7
      · simp only [Option.some.injEq, Prod.mk.injEq] at h
        rw [← h.2, List.length_drop]; omega
      · simp only [Option.some.injEq, Prod.mk.injEq] at h
        rw [← h.2, List.length_drop]; omega
      · simp only [Option.some.injEq, Prod.mk.injEq] at h
        rw [← h.2, List.length_drop]; omega
      · cases hp : parseNumber (c :: r0) with
        | none => rw [hp] at h; simp at h
        | some p =>
          have hl := parseNumber_length_le (c :: r0) p.1 p.2 hp
          rw [hp] at h
          simp only [Option.map_some', Option.some.injEq, Prod.mk.injEq] at h
          rw [← h.2]
          simp only [List.length_cons] at hl
          omega
    · obtain ⟨g2, rfl, _⟩ := pos g hg
      exact hrest g2

end JSON
end SkillList

namespace SkillList
namespace JSON

theorem parseElements_succ_fuelIndependent (f : Nat) (hV : FuelIndependent parseValue f)
    (hE : ∀ acc, FuelIndependent (fun g cs => parseElements g cs acc) f) (acc : List JSValue) :
    FuelIndependent (fun g cs => parseElements g cs acc) (f + 1) := by
  intro cs v r h
  simp only at h
  rw [parseElements] at h
  cases hv : parseValue f cs with
  | none => rw [hv] at h; simp at h
  | some p =>
    obtain ⟨v1, r1⟩ := p
    obtain ⟨hl1, hg1⟩ := hV cs v1 r1 hv
    rw [hv] at h
    simp only at h
    cases hs : skipWs r1 with
    | nil => rw [hs] at h; simp at h
    | cons d r2 =>
      have hws := length_skipWs_le r1
      rw [hs] at hws h
      simp only [List.length_cons] at hws
      simp only at h
      have same : ∀ g, cs.length - r1.length < g → parseElements (g + 1) cs acc =
          if d = 0x2C then parseElements g r2 (acc ++ [v1])
          else if d = 0x5D then some (.arr (acc ++ [v1]), r2)
          else none := by
        intro g hg
        rw [parseElements, hg1 g hg]
        simp only [hs]
      by_cases hd : d = 0x2C
      · rw [if_pos hd] at h
        obtain ⟨hl, hg⟩ := hE (acc ++ [v1]) r2 v r h
        refine ⟨by omega, fun g hg2 => ?_⟩
        obtain ⟨g2, rfl⟩ : ∃ g2, g = g2 + 1 := ⟨g - 1, by omega⟩
        simp only
        rw [same g2 (by omega), if_pos hd]
        exact hg g2 (by omega)
      · rw [if_neg hd] at h
        by_cases hd2 : d = 0x5D
        · rw [if_pos hd2] at h
          simp only [Option.some.injEq, Prod.mk.injEq] at h
          obtain ⟨hv2, hr2⟩ := h
          subst hr2
          refine ⟨by omega, fun g hg2 => ?_⟩
          obtain ⟨g2, rfl⟩ : ∃ g2, g = g2 + 1 := ⟨g - 1, by omega⟩
          simp only
          rw [same g2 (by omega), if_neg hd, if_pos hd2, hv2]
        · rw [if_neg hd2] at h
          simp at h

theorem parseMembers_succ_fuelIndependent (f : Nat) (hV : FuelIndependent parseValue f)
    (hM : ∀ acc, FuelIndependent (fun g cs => parseMembers g cs acc) f)
    (acc : List (JSString × JSValue)) :
    FuelIndependent (fun g cs => parseMembers g cs acc) (f + 1) := by
  intro cs v r h
  simp only at h
  rw [parseMembers] at h
  cases hs0 : skipWs cs with
  | nil => rw [hs0] at h; simp at h
  | cons q r0 =>
    have hws0 := length_skipWs_le cs
    rw [hs0] at hws0 h
    simp only [List.length_cons] at hws0
    simp only at h
    by_cases hq : q = 0x22
    swap
    · rw [if_neg hq] at h; simp at h
    rw [if_pos hq] at h
    cases hk : parseChars r0 with
    | none => rw [hk] at h; simp at h
    | some p =>
      obtain ⟨k, r1⟩ := p
      have hlk := parseChars_length_le r0 k r1 hk
      rw [hk] at h
      simp only at h
      cases hs1 : skipWs r1 with
      | nil => rw [hs1] at h; simp at h
      | cons colon r2 =>
        have hws1 := length_skipWs_le r1
        rw [hs1] at hws1 h
        simp only [List.length_cons] at hws1
        simp only at h
        by_cases hc : colon = 0x3A
        swap
        · rw [if_neg hc] at h; simp at h
        rw [if_pos hc] at h
        cases hv : parseValue f r2 with
        | none => rw [hv] at h; simp at h
        | some p2 =>
          obtain ⟨v1, r3⟩ := p2
          obtain ⟨hl1, hg1⟩ := hV r2 v1 r3 hv
          rw [hv] at h
          simp only at h
          cases hs3 : skipWs r3 with
          | nil => rw [hs3] at h; simp at h
          | cons d r4 =>
            have hws3 := length_skipWs_le r3
            rw [hs3] at hws3 h
            simp only [List.length_cons] at hws3
            simp only at h
            have same : ∀ g, r2.length - r3.length < g → parseMembers (g + 1) cs acc =
                if d = 0x2C then parseMembers g r4 (objSet acc k v1)
                else if d = 0x7D then some (.obj (objSet acc k v1), r4)
                else none := by
              intro g hg
              rw [parseMembers, hs0]
              simp only [if_pos hq, hk, hs1, if_pos hc, hg1 g hg, hs3]
            by_cases hd : d = 0x2C
            · rw [if_pos hd] at h
              obtain ⟨hl, hg⟩ := hM (objSet acc k v1) r4 v r h
              refine ⟨by omega, fun g hg2 => ?_⟩
              obtain ⟨g2, rfl⟩ : ∃ g2, g = g2 + 1 := ⟨g - 1, by omega⟩
              simp only
              rw [same g2 (by omega), if_pos hd]
              exact hg g2 (by omega)
            · rw [if_neg hd] at h
              by_cases hd2 : d = 0x7D
              · rw [if_pos hd2] at h
                simp only [Option.some.injEq, Prod.mk.injEq] at h
                obtain ⟨hv2, hr2⟩ := h
                subst hr2
                refine ⟨by omega, fun g hg2 => ?_⟩
                obtain ⟨g2, rfl⟩ : ∃ g2, g = g2 + 1 := ⟨g - 1, by omega⟩
                simp only
                rw [same g2 (by omega), if_neg hd, if_pos hd2, hv2]
              · rw [if_neg hd2] at h
                simp at h

/-- Successful runs of the three parsers do not depend on the depth bound. -/
theorem fuelIndependent_all (f : Nat) :
    FuelIndependent parseValue f ∧
      (∀ acc, FuelIndependent (fun g cs => parseElements g cs acc) f) ∧
      (∀ acc, FuelIndependent (fun g cs => parseMembers g cs acc) f) := by
  induction f with
  | zero =>
    refine ⟨?_, ?_, ?_⟩
    · intro cs v r h; rw [parseValue] at h; simp at h
    · intro acc cs v r h; simp only at h; rw [parseElements] at h; simp at h
    · intro acc cs v r h; simp only at h; rw [parseMembers] at h; simp at h
  | succ f ih =>
    obtain ⟨hV, hE, hM⟩ := ih
    exact ⟨parseValue_succ_fuelIndependent f hE hM,
      fun acc => parseElements_succ_fuelIndependent f hV hE acc,
      fun acc => parseMembers_succ_fuelIndependent f hV hM acc⟩

/-- Whatever some depth bound can parse, the bound `text.length + 1` that `JSON.parse`
uses parses to the same value: the bound never cuts a parse short. -/
theorem parseValue_length_succ (f : Nat) (text : JSString) (v : JSValue) (r : JSString)
    (h : parseValue f text = some (v, r)) :
    parseValue (text.length + 1) text = some (v, r) :=
  ((fuelIndependent_all f).1 text v r h).2 (text.length + 1) (by omega)

/-- The result of `JSON.parse` is the result at any depth bound that gets through the
text. -/
theorem parse_eq_of_parseValue (f : Nat) (text : JSString) (v : JSValue) (r : JSString)
    (h : parseValue f text = some (v, r)) :
    parse text = if skipWs r = [] then .ok v else .error .syntaxError := by
  unfold parse
  rw [parseValue_length_succ f text v r h]

end JSON
end SkillList

namespace SkillList
namespace JSON

/-! ### Round trip of course objects and course arrays -/

theorem skipWs_cons (c : Nat) (t : JSString) (h : isJsonWs c = false) :
    skipWs (c :: t) = c :: t := by
  simp [skipWs, List.dropWhile, h]

/-- A string literal parses to the string it quotes. -/
theorem parseValue_string (f : Nat) (s rest : JSString) :
    parseValue (f + 1) (quoteJSONString s ++ rest) = some (.str s, rest) := by
  obtain ⟨t, ht, hp⟩ := parseChars_quoteJSONString s rest
  rw [ht, parseValue, skipWs_cons _ _ (by decide)]
  simp [hp]

/-- One member `"key":"value"` followed by a comma: parsing goes on with the next one. -/
theorem parseMembers_comma (f : Nat) (k v rest : JSString) (acc : List (JSString × JSValue)) :
    parseMembers (f + 2) (quoteJSONString k ++ 0x3A :: (quoteJSONString v ++ 0x2C :: rest)) acc =
      parseMembers (f + 1) rest (objSet acc k (.str v)) := by
  obtain ⟨t, ht, hp⟩ := parseChars_quoteJSONString k (0x3A :: (quoteJSONString v ++ 0x2C :: rest))
  rw [ht, parseMembers, skipWs_cons _ _ (by decide)]
  simp only [if_true, hp, skipWs_cons 0x3A _ (by decide)]
  rw [parseValue_string]
  simp only [skipWs_cons 0x2C _ (by decide), if_true]

/-- The last member `"key":"value"` followed by the closing brace. -/
theorem parseMembers_close (f : Nat) (k v rest : JSString) (acc : List (JSString × JSValue)) :
    parseMembers (f + 2) (quoteJSONString k ++ 0x3A :: (quoteJSONString v ++ 0x7D :: rest)) acc =
      some (.obj (objSet acc k (.str v)), rest) := by
  obtain ⟨t, ht, hp⟩ := parseChars_quoteJSONString k (0x3A :: (quoteJSONString v ++ 0x7D :: rest))
  rw [ht, parseMembers, skipWs_cons _ _ (by decide)]
  simp only [if_true, hp, skipWs_cons 0x3A _ (by decide)]
  rw [parseValue_string]
  simp only [skipWs_cons 0x7D _ (by decide)]
  simp

/-- The JSON text of a course object. -/
theorem stringify_course (c : Course) :
    stringify c.toJS = 0x7B :: (quoteJSONString (js "courseName") ++ 0x3A ::
      (quoteJSONString c.courseName ++ 0x2C :: (quoteJSONString (js "platform") ++ 0x3A ::
      (quoteJSONString c.platform ++ 0x2C :: (quoteJSONString (js "link") ++ 0x3A ::
      (quoteJSONString c.link ++ 0x2C :: (quoteJSONString (js "totalVideos") ++ 0x3A ::
      (quoteJSONString c.totalVideos ++ 0x2C :: (quoteJSONString (js "completed") ++ 0x3A ::
      (quoteJSONString c.completed ++ 0x2C :: (quoteJSONString (js "dateAdded") ++ 0x3A ::
      (quoteJSONString c.dateAdded ++ [0x7D])))))))))))) := by
  simp [Course.toJS, stringify, stringifyProps]

theorem objInsert_of_not_index (k : JSString) (v : JSValue) (h : arrayIndex k = none)
    (ps : List (JSString × JSValue)) : objInsert k v ps = ps ++ [(k, v)] := by
  induction ps with
  | nil => rfl
  | cons p ps ih => simp [objInsert, h, ih]

/-- A key that is new and not an array index is added after the existing properties. -/
theorem objSet_new (ps : List (JSString × JSValue)) (k : JSString) (v : JSValue)
    (hk : k ∉ ps.map Prod.fst) (h : arrayIndex k = none) :
    objSet ps k v = ps ++ [(k, v)] := by
  have hany : ps.any (fun p => decide (p.1 = k)) = false := by
    rw [List.any_eq_false]
    intro p hp
    simp only [decide_eq_true_eq]
    intro hpk
    exact hk (by rw [← hpk]; exact List.mem_map_of_mem _ hp)
  unfold objSet
  rw [hany]
  simp [objInsert_of_not_index k v h]

/-- The six properties of a course are created in order: none of the keys is an array
index and none repeats. -/
theorem objSet_course (a b c d e f : JSValue) :
    objSet (objSet (objSet (objSet (objSet (objSet [] (js "courseName") a) (js "platform") b)
      (js "link") c) (js "totalVideos") d) (js "completed") e) (js "dateAdded") f =
    [(js "courseName", a), (js "platform", b), (js "link", c), (js "totalVideos", d),
      (js "completed", e), (js "dateAdded", f)] := by
  rw [objSet_new [] _ _ (by simp) (by decide)]
  rw [objSet_new _ (js "platform") _ (by simp only [List.nil_append, List.map]; decide) (by decide)]
  rw [objSet_new _ (js "link") _ (by simp only [List.nil_append, List.cons_append, List.map]; decide)
    (by decide)]
  rw [objSet_new _ (js "totalVideos") _
    (by simp only [List.nil_append, List.cons_append, List.map]; decide) (by decide)]
  rw [objSet_new _ (js "completed") _
    (by simp only [List.nil_append, List.cons_append, List.map]; decide) (by decide)]
  rw [objSet_new _ (js "dateAdded") _
    (by simp only [List.nil_append, List.cons_append, List.map]; decide) (by decide)]
  rfl

/-- The JSON text of a course object followed by more text. -/
theorem stringify_course_append (c : Course) (rest : JSString) :
    stringify c.toJS ++ rest = 0x7B :: (quoteJSONString (js "courseName") ++ 0x3A ::
      (quoteJSONString c.courseName ++ 0x2C :: (quoteJSONString (js "platform") ++ 0x3A ::
      (quoteJSONString c.platform ++ 0x2C :: (quoteJSONString (js "link") ++ 0x3A ::
      (quoteJSONString c.link ++ 0x2C :: (quoteJSONString (js "totalVideos") ++ 0x3A ::
      (quoteJSONString c.totalVideos ++ 0x2C :: (quoteJSONString (js "completed") ++ 0x3A ::
      (quoteJSONString c.completed ++ 0x2C :: (quoteJSONString (js "dateAdded") ++ 0x3A ::
      (quoteJSONString c.dateAdded ++ 0x7D :: rest)))))))))))) := by
  rw [stringify_course]
  simp only [List.cons_append, List.append_assoc, List.nil_append]

/-- A course object parses back to itself. -/
theorem parseValue_course (f : Nat) (c : Course) (rest : JSString) :
    parseValue (f + 8) (stringify c.toJS ++ rest) = some (c.toJS, rest) := by
  rw [stringify_course_append, parseValue, skipWs_cons _ _ (by decide)]
  have hq : ∀ t : JSString, quoteJSONString (js "courseName") ++ t =
      0x22 :: (quoteChars (js "courseName") ++ 0x22 :: t) := by
    intro t; simp [quoteJSONString]
  simp only [show ((0x7B : Nat) = 0x22) = False by simp, show ((0x7B : Nat) = 0x5B) = False by simp,
    if_false, if_true]
  rw [hq, skipWs_cons _ _ (by decide)]
  simp only [show ((0x22 : Nat) = 0x7D) = False by simp, if_false]
  rw [← hq]
  rw [parseMembers_comma, parseMembers_comma, parseMembers_comma, parseMembers_comma,
    parseMembers_comma, parseMembers_close, objSet_course]
  rfl

end JSON
end SkillList

namespace SkillList
namespace JSON

theorem stringify_course_head (c : Course) (rest : JSString) :
    ∃ t, stringify c.toJS ++ rest = 0x7B :: t :=
  ⟨_, stringify_course_append c rest⟩

/-- The elements of a non-empty course array, up to the closing bracket, parse back to
the courses (appended to the elements read before). -/
theorem parseElements_courses (cs : List Course) :
    ∀ (f : Nat) (c : Course) (rest : JSString) (acc : List JSValue),
      parseElements (f + cs.length + 9)
          (stringifyElems ((c :: cs).map Course.toJS) ++ 0x5D :: rest) acc =
        some (.arr (acc ++ (c :: cs).map Course.toJS), rest) := by
  induction cs with
  | nil =>
    intro f c rest acc
    simp only [List.map, stringifyElems, List.length_nil, Nat.add_zero]
    rw [parseElements, parseValue_course]
    simp only [skipWs_cons 0x5D _ (by decide)]
    simp
  | cons c2 cs ih =>
    intro f c rest acc
    simp only [List.map, stringifyElems, List.length_cons, List.append_assoc, List.cons_append]
    rw [show f + (cs.length + 1) + 9 = (f + cs.length + 1) + 8 + 1 by omega]
    rw [parseElements, parseValue_course]
    simp only [skipWs_cons 0x2C _ (by decide), if_true]
    have := ih f c2 rest (acc ++ [c.toJS])
    simp only [List.map] at this
    rw [show f + cs.length + 1 + 8 = f + cs.length + 9 by omega, this]
    simp

theorem length_stringify_course (c : Course) : 10 ≤ (stringify c.toJS).length := by
  rw [stringify_course]
  simp only [List.length_cons, List.length_append, quoteJSONString, List.length_nil]
  omega

theorem length_stringifyElems_courses (cs : List Course) :
    10 * cs.length ≤ (stringifyElems (cs.map Course.toJS)).length := by
  induction cs with
  | nil => simp
  | cons c cs ih =>
    cases cs with
    | nil =>
      have := length_stringify_course c
      simpa [stringifyElems] using this
    | cons c2 cs =>
      have h1 := length_stringify_course c
      simp only [List.map, stringifyElems, List.length_append, List.length_cons] at ih ⊢
      omega

/-- A course array parses back to itself, whatever the (sufficient) depth bound. -/
theorem parseValue_courses (cs : List Course) (f : Nat) (rest : JSString) :
    parseValue (f + 9 * cs.length + 1) (stringify (coursesToJS cs) ++ rest) =
      some (coursesToJS cs, rest) := by
  cases cs with
  | nil =>
    simp only [coursesToJS, List.map, stringify, stringifyElems, List.nil_append,
      List.cons_append, List.length_nil]
    rw [parseValue, skipWs_cons _ _ (by decide)]
    simp only [show ((0x5B : Nat) = 0x22) = False by simp, if_false, if_true]
    rw [skipWs_cons _ _ (by decide)]
    simp
  | cons c cs =>
    simp only [coursesToJS, stringify, List.cons_append, List.append_assoc, List.nil_append,
      List.length_cons]
    rw [parseValue, skipWs_cons _ _ (by decide)]
    simp only [show ((0x5B : Nat) = 0x22) = False by simp, if_false, if_true]
    have hel := parseElements_courses cs (f + 8 * cs.length) c rest []
    rw [show f + 8 * cs.length + cs.length + 9 = f + 9 * (cs.length + 1) by omega] at hel
    obtain ⟨t, ht⟩ : ∃ t, stringifyElems ((c :: cs).map Course.toJS) ++ 0x5D :: rest = 0x7B :: t := by
      cases cs with
      | nil =>
        simp only [List.map, stringifyElems]
        exact stringify_course_head c _
      | cons c2 cs =>
        simp only [List.map, stringifyElems, List.append_assoc]
        exact stringify_course_head c _
    rw [ht] at hel ⊢
    rw [skipWs_cons _ _ (by decide)]
    simp only [show ((0x7B : Nat) = 0x5D) = False by simp, if_false]
    rw [hel]
    simp

/-- `JSON.parse(JSON.stringify(courses))` gives back the course array. -/
theorem parse_stringify_courses (cs : List Course) :
    parse (stringify (coursesToJS cs)) = .ok (coursesToJS cs) := by
  have hlen : 9 * cs.length ≤ (stringify (coursesToJS cs)).length := by
    have := length_stringifyElems_courses cs
    simp only [coursesToJS, stringify, List.length_cons, List.length_append, List.length_nil]
    omega
  obtain ⟨f, hf⟩ : ∃ f, (stringify (coursesToJS cs)).length = f + 9 * cs.length :=
    ⟨(stringify (coursesToJS cs)).length - 9 * cs.length, by omega⟩
  have h := parseValue_courses cs f []
  rw [List.append_nil] at h
  unfold parse
  rw [hf, h]
  simp [skipWs]

end JSON
end SkillList

namespace SkillList

/-! ### Storage adapter -/

theorem eraseIdx_map_toJS (cs : List Course) (i : Nat) :
    (cs.map Course.toJS).eraseIdx i = (cs.eraseIdx i).map Course.toJS := by
  induction cs generalizing i with
  | nil => rfl
  | cons c cs ih =>
    cases i with
    | zero => rfl
    | succ i => simp [List.eraseIdx, ih]

theorem Course.toJS_injective : Function.Injective Course.toJS := by
  intro a b h
  cases a; cases b
  simp only [Course.toJS, JSValue.obj.injEq, List.cons.injEq, Prod.mk.injEq, JSValue.str.injEq,
    true_and, and_true] at h
  obtain ⟨h1, h2, h3, h4, h5, h6⟩ := h
  subst h1 h2 h3 h4 h5 h6
  rfl

/-- Two course sequences with the same JavaScript array are equal. -/
theorem coursesToJS_injective : Function.Injective coursesToJS := by
  intro a b h
  simp only [coursesToJS, JSValue.arr.injEq] at h
  exact List.map_injective_iff.2 Course.toJS_injective h

/-- Reading back what `saveCourses` stored. -/
theorem getCourses_saveCourses (st : App) (cs : List Course) :
    getCourses (saveCourses st (coursesToJS cs)) = .ok (coursesToJS cs) := by
  have hne : JSON.stringify (coursesToJS cs) ≠ [] := by
    simp [coursesToJS, JSON.stringify]
  simp only [getCourses, saveCourses, Storage.getItem, Storage.setItem, if_true, if_neg hne]
  exact JSON.parse_stringify_courses cs

/-- `getCourses` reads nothing but the entry under `STORAGE_KEY`. -/
theorem getCourses_congr {st st2 : App}
    (h : st2.localStorage.getItem STORAGE_KEY = st.localStorage.getItem STORAGE_KEY) :
    getCourses st2 = getCourses st := by
  simp only [getCourses, h]

theorem push_courses (cs : List Course) (c : Course) :
    push (coursesToJS cs) c.toJS = .ok (coursesToJS (cs ++ [c])) := by
  simp [push, coursesToJS]

theorem splice_courses (cs : List Course) (i : Nat) :
    splice (coursesToJS cs) i = .ok (coursesToJS (cs.eraseIdx i)) := by
  simp [splice, coursesToJS, eraseIdx_map_toJS]

/-- Assigning `completed` on a course object replaces that property and nothing else. -/
theorem objSet_completed (c : Course) (v : JSString) :
    JSValue.obj (objSet [(js "courseName", .str c.courseName), (js "platform", .str c.platform),
      (js "link", .str c.link), (js "totalVideos", .str c.totalVideos),
      (js "completed", .str c.completed), (js "dateAdded", .str c.dateAdded)]
      (js "completed") (.str v)) = ({ c with completed := v } : Course).toJS := by
  have h1 : js "courseName" ≠ js "completed" := by decide
  have h2 : js "platform" ≠ js "completed" := by decide
  have h3 : js "link" ≠ js "completed" := by decide
  have h4 : js "totalVideos" ≠ js "completed" := by decide
  have h6 : js "dateAdded" ≠ js "completed" := by decide
  simp [objSet, Course.toJS, h1, h2, h3, h4, h6]

theorem assignCompleted_courses (strict : Bool) (cs : List Course) (i : Nat) (c : Course)
    (hc : cs[i]? = some c) (v : JSString) :
    assignCompleted strict (coursesToJS cs) i v =
      .ok (coursesToJS (cs.set i { c with completed := v })) := by
  have hget : (cs.map Course.toJS)[i]? = some c.toJS := by
    rw [List.getElem?_map, hc]; rfl
  simp only [assignCompleted, coursesToJS, hget]
  have : assignCompletedTo strict (some c.toJS) v =
      .ok (({ c with completed := v } : Course).toJS) := by
    simp only [Course.toJS, assignCompletedTo]
    rw [objSet_completed]
    rfl
  rw [this]
  simp [List.map_set]

end SkillList

namespace SkillList

/-! ### Claims about the storage adapter -/

/-- C4 (counterexample): with the malformed text `{` stored, `getCourses` throws a
`SyntaxError` instead of returning the empty sequence; with the valid JSON text `{}`
stored, it returns that object, which is not the empty sequence either. -/
theorem getCourses_failsafe_counterexample :
    getCourses { App.fresh with
        localStorage := App.fresh.localStorage.setItem STORAGE_KEY (js "\x7b") } =
      .error .syntaxError ∧
    getCourses { App.fresh with
        localStorage := App.fresh.localStorage.setItem STORAGE_KEY (js "\x7b\x7d") } =
      .ok (.obj []) ∧
    getCourses { App.fresh with
        localStorage := App.fresh.localStorage.setItem STORAGE_KEY (js "\x7b\x7d") } ≠
      .ok (.arr []) := by
  refine ⟨rfl, rfl, ?_⟩
  intro h
  have h2 : getCourses { App.fresh with
      localStorage := App.fresh.localStorage.setItem STORAGE_KEY (js "\x7b\x7d") } =
      .ok (.obj []) := rfl
  rw [h2] at h
  cases h

/-- C4 (amended): `getCourses` returns the empty sequence when nothing is stored under the
key or the stored text is empty; for any other stored text it returns exactly what
`JSON.parse` returns for it, the parsed value or the thrown `SyntaxError`. -/
theorem getCourses_result (st : App) :
    (st.localStorage.getItem STORAGE_KEY = none ∨
        st.localStorage.getItem STORAGE_KEY = some [] → getCourses st = .ok (.arr [])) ∧
      (∀ text : JSString, st.localStorage.getItem STORAGE_KEY = some text → text ≠ [] →
        getCourses st = JSON.parse text) := by
  constructor
  · rintro (h | h) <;> simp [getCourses, h]
  · intro text h hne
    simp [getCourses, h, hne]

/-- C4 (witness): nothing stored gives the empty sequence, and the stored text `[]` is
parsed. -/
theorem getCourses_result_witness :
    getCourses App.fresh = .ok (.arr []) ∧
      getCourses { App.fresh with
          localStorage := App.fresh.localStorage.setItem STORAGE_KEY (js "[]") } =
        JSON.parse (js "[]") :=
  ⟨(getCourses_result App.fresh).1 (Or.inl rfl),
    (getCourses_result { App.fresh with
      localStorage := App.fresh.localStorage.setItem STORAGE_KEY (js "[]") }).2 (js "[]") rfl
      (by decide)⟩

/-- C5: after `saveCourses(X)`, `getCourses()` returns `X`: the same courses in the same
order, with every field equal. -/
theorem getCourses_saveCourses_roundtrip (st : App) (X : List Course) :
    getCourses (saveCourses st (coursesToJS X)) = .ok (coursesToJS X) ∧
      ∀ Y : List Course, getCourses (saveCourses st (coursesToJS X)) = .ok (coursesToJS Y) →
        Y = X := by
  refine ⟨getCourses_saveCourses st X, fun Y h => ?_⟩
  rw [getCourses_saveCourses] at h
  injection h with h
  exact (coursesToJS_injective h).symm

/-! ### Claims about the mutation operations -/

/-- C6: with the stored sequence `S` and non-empty trimmed name, platform and total
units, `addCourse` stores `S` followed by one new course built from the trimmed form
values, with `completed = "0"` (and `link = ""` when the link field is blank). -/
theorem addCourse_appends (now : JSString) (st : App) (S : List Course)
    (hS : getCourses st = .ok (coursesToJS S))
    (hname : trim st.courseName ≠ []) (hplatform : trim st.platform ≠ [])
    (htotal : trim st.totalVideos ≠ []) :
    ∃ st2 : App, ∃ c : Course,
      addCourse now st = .ok st2 ∧
      getCourses st2 = .ok (coursesToJS (S ++ [c])) ∧
      c = { courseName := trim st.courseName, platform := trim st.platform,
            link := trim st.link, totalVideos := trim st.totalVideos,
            completed := js "0", dateAdded := now } ∧
      (trim st.link = [] → c.link = js "") ∧
      (S ++ [c]).length = S.length + 1 ∧
      (∀ j, j < S.length → (S ++ [c])[j]? = S[j]?) ∧
      (S ++ [c])[S.length]? = some c := by
  have hlink : (if trim st.link = [] then js "" else trim st.link) = trim st.link := by
    split_ifs with h
    · rw [h]; rfl
    · rfl
  have hobj : JSValue.obj [(js "courseName", .str (trim st.courseName)),
      (js "platform", .str (trim st.platform)),
      (js "link", .str (if trim st.link = [] then js "" else trim st.link)),
      (js "totalVideos", .str (trim st.totalVideos)), (js "completed", .str (js "0")),
      (js "dateAdded", .str now)] =
      Course.toJS ⟨trim st.courseName, trim st.platform, trim st.link, trim st.totalVideos,
        js "0", now⟩ := by
    rw [hlink]; rfl
  have hadd : ∃ st2 : App, addCourse now st = .ok st2 ∧ st2.localStorage =
      (saveCourses st (coursesToJS (S ++ [⟨trim st.courseName, trim st.platform, trim st.link,
        trim st.totalVideos, js "0", now⟩]))).localStorage := by
    simp only [addCourse, hname, hplatform, htotal, or_self, if_false, hS, hobj, push_courses]
    exact ⟨_, rfl, rfl⟩
  obtain ⟨st2, h1, h2⟩ := hadd
  refine ⟨st2, ⟨trim st.courseName, trim st.platform, trim st.link, trim st.totalVideos,
    js "0", now⟩, h1, ?_, rfl, ?_, ?_, ?_, ?_⟩
  · exact (getCourses_congr (by rw [h2])).trans (getCourses_saveCourses st _)
  · intro h; simp only [h]; rfl
  · simp
  · intro j hj; exact List.getElem?_append_left hj
  · simp

/-- C6 (witness): adding `X` on platform `Y` with `10` units to a fresh page. -/
theorem addCourse_appends_witness :
    ∃ st2 : App, ∃ c : Course,
      addCourse (js "2024-01-01T00:00:00.000Z")
        { App.fresh with courseName := js " X ", platform := js "Y", totalVideos := js "10" }
        = .ok st2 ∧
      getCourses st2 = .ok (coursesToJS ([] ++ [c])) ∧
      c = { courseName := js "X", platform := js "Y", link := js "", totalVideos := js "10",
            completed := js "0", dateAdded := js "2024-01-01T00:00:00.000Z" } := by
  obtain ⟨st2, c, h1, h2, h3, _⟩ := addCourse_appends (js "2024-01-01T00:00:00.000Z")
    { App.fresh with courseName := js " X ", platform := js "Y", totalVideos := js "10" } []
    rfl (by decide) (by decide) (by decide)
  refine ⟨st2, c, h1, h2, ?_⟩
  rw [h3]
  decide

/-- C7: when the trimmed name, platform or total-units field is empty, `addCourse` is
rejected with a notice and the stored sequence is left exactly as it was. -/
theorem addCourse_rejects (now : JSString) (st : App)
    (h : trim st.courseName = [] ∨ trim st.platform = [] ∨ trim st.totalVideos = []) :
    ∃ st2 : App, addCourse now st = .ok st2 ∧
      st2.localStorage = st.localStorage ∧ getCourses st2 = getCourses st ∧
      st2.currentCourseIndex = st.currentCourseIndex ∧
      st2.alerts = st.alerts ++ [js "Please fill in all required fields!"] := by
  refine ⟨{ st with alerts := st.alerts ++ [js "Please fill in all required fields!"] },
    ?_, rfl, rfl, rfl, rfl⟩
  simp only [addCourse, h, if_true]

/-- C7 (witness): a whitespace-only name on a page that already stores a course. -/
theorem addCourse_rejects_witness :
    ∃ st2 : App,
      addCourse (js "now")
        { saveCourses App.fresh (coursesToJS
            [{ courseName := js "X", platform := js "Y", link := js "", totalVideos := js "10",
               completed := js "0", dateAdded := js "t" }]) with
          courseName := js "  ", platform := js "Y", totalVideos := js "10" } = .ok st2 ∧
      st2.localStorage = (saveCourses App.fresh (coursesToJS
            [{ courseName := js "X", platform := js "Y", link := js "", totalVideos := js "10",
               completed := js "0", dateAdded := js "t" }])).localStorage := by
  obtain ⟨st2, h1, h2, _⟩ := addCourse_rejects (js "now")
    { saveCourses App.fresh (coursesToJS
        [{ courseName := js "X", platform := js "Y", link := js "", totalVideos := js "10",
           completed := js "0", dateAdded := js "t" }]) with
      courseName := js "  ", platform := js "Y", totalVideos := js "10" }
    (Or.inl (by decide))
  exact ⟨st2, h1, h2⟩

end SkillList

namespace SkillList

/-- C8: with the stored sequence `S` and an active index `i < |S|`, `confirmDelete` stores
`S` with the element at `i` erased (one course fewer, earlier courses in place, later
courses moved down by one) and clears the active index. -/
theorem confirmDelete_erases (st : App) (S : List Course) (i : Nat)
    (hS : getCourses st = .ok (coursesToJS S))
    (hi : st.currentCourseIndex = some i) (hlt : i < S.length) :
    ∃ st2 : App, confirmDelete st = .ok st2 ∧
      getCourses st2 = .ok (coursesToJS (S.eraseIdx i)) ∧
      st2.currentCourseIndex = none ∧
      (S.eraseIdx i).length = S.length - 1 ∧
      (∀ j, j < i → (S.eraseIdx i)[j]? = S[j]?) ∧
      (∀ j, i ≤ j → (S.eraseIdx i)[j]? = S[j + 1]?) := by
  refine ⟨closeDeleteModal (saveCourses st (coursesToJS (S.eraseIdx i))), ?_, ?_, rfl, ?_, ?_, ?_⟩
  · simp only [confirmDelete, hi, hS, splice_courses]
  · exact (getCourses_congr rfl).trans (getCourses_saveCourses st _)
  · rw [List.length_eraseIdx, if_pos hlt]
  · intro j hj; exact List.getElem?_eraseIdx_of_lt S i j hj
  · intro j hj; exact List.getElem?_eraseIdx_of_ge S i j hj

/-- C8 (witness): deleting the first of two stored courses after `openDeleteModal(0)`. -/
theorem confirmDelete_erases_witness :
    ∃ st2 : App,
      confirmDelete (openDeleteModal 0 (saveCourses App.fresh (coursesToJS
        [⟨js "A", js "P", js "", js "10", js "0", js "t1"⟩,
         ⟨js "B", js "Q", js "", js "20", js "5", js "t2"⟩]))) = .ok st2 ∧
      getCourses st2 = .ok (coursesToJS [⟨js "B", js "Q", js "", js "20", js "5", js "t2"⟩]) ∧
      st2.currentCourseIndex = none := by
  obtain ⟨st2, h1, h2, h3, _⟩ := confirmDelete_erases
    (openDeleteModal 0 (saveCourses App.fresh (coursesToJS
      [⟨js "A", js "P", js "", js "10", js "0", js "t1"⟩,
       ⟨js "B", js "Q", js "", js "20", js "5", js "t2"⟩])))
    [⟨js "A", js "P", js "", js "10", js "0", js "t1"⟩,
     ⟨js "B", js "Q", js "", js "20", js "5", js "t2"⟩] 0
    ((getCourses_congr rfl).trans (getCourses_saveCourses App.fresh _)) rfl (by decide)
  exact ⟨st2, h1, h2, h3⟩

/-- C9: with the stored sequence `S`, an active index `i < |S|` and a completion value
that is non-empty after trimming, `saveCompletion` stores a sequence of the same length in
which course `i` has the new `completed` value and all its other fields as before, and
every other course is unchanged. -/
theorem saveCompletion_updates (strict : Bool) (st : App) (S : List Course) (i : Nat)
    (hS : getCourses st = .ok (coursesToJS S))
    (hi : st.currentCourseIndex = some i) (hlt : i < S.length)
    (hv : trim st.modalCompleted ≠ []) :
    ∃ st2 : App, ∃ S2 : List Course, ∃ c : Course,
      saveCompletion strict st = .ok st2 ∧
      getCourses st2 = .ok (coursesToJS S2) ∧
      S[i]? = some c ∧
      S2.length = S.length ∧
      S2[i]? = some { courseName := c.courseName, platform := c.platform, link := c.link,
                      totalVideos := c.totalVideos, completed := trim st.modalCompleted,
                      dateAdded := c.dateAdded } ∧
      (∀ j, j ≠ i → S2[j]? = S[j]?) := by
  have hc : S[i]? = some S[i] := List.getElem?_eq_getElem hlt
  refine ⟨closeUpdateModal (saveCourses st (coursesToJS
      (S.set i { S[i] with completed := trim st.modalCompleted }))),
    S.set i { S[i] with completed := trim st.modalCompleted }, S[i], ?_, ?_, hc, ?_, ?_, ?_⟩
  · simp only [saveCompletion, hi, hv, if_false, hS, assignCompleted_courses strict S i S[i] hc]
  · exact (getCourses_congr rfl).trans (getCourses_saveCourses st _)
  · exact List.length_set _ _ _
  · rw [List.getElem?_set, if_pos rfl, if_pos hlt]
  · intro j hj
    rw [List.getElem?_set, if_neg (Ne.symm hj)]

/-- C9 (witness): setting `completed` to `5` on the only stored course. -/
theorem saveCompletion_updates_witness :
    ∃ st2 : App, ∃ S2 : List Course,
      saveCompletion false
        { saveCourses App.fresh (coursesToJS [⟨js "X", js "Y", js "", js "10", js "0", js "t"⟩])
          with currentCourseIndex := some 0, modalCompleted := js " 5 " } = .ok st2 ∧
      getCourses st2 = .ok (coursesToJS S2) ∧
      S2[0]? = some ⟨js "X", js "Y", js "", js "10", js "5", js "t"⟩ := by
  obtain ⟨st2, S2, c, h1, h2, h3, _, h5, _⟩ := saveCompletion_updates false
    { saveCourses App.fresh (coursesToJS [⟨js "X", js "Y", js "", js "10", js "0", js "t"⟩])
      with currentCourseIndex := some 0, modalCompleted := js " 5 " }
    [⟨js "X", js "Y", js "", js "10", js "0", js "t"⟩] 0
    ((getCourses_congr rfl).trans (getCourses_saveCourses App.fresh _)) rfl (by decide)
    (by decide)
  refine ⟨st2, S2, h1, h2, ?_⟩
  rw [h5]
  simp only [List.getElem?_cons_zero, Option.some.injEq] at h3
  subst h3
  decide

/-- C10: with no active index, `saveCompletion` and `confirmDelete` return at once: the
state, and with it the stored sequence and the (absent) active index, is unchanged,
whatever the completion input holds. -/
theorem confirm_without_active_index (strict : Bool) (st : App)
    (h : st.currentCourseIndex = none) :
    saveCompletion strict st = .ok st ∧ confirmDelete st = .ok st := by
  constructor
  · simp only [saveCompletion, h]
  · simp only [confirmDelete, h]

/-- C10 (witness): both confirm actions on a page with a stored course, no active index
and text in the completion input. -/
theorem confirm_without_active_index_witness :
    saveCompletion false
        { saveCourses App.fresh (coursesToJS [⟨js "X", js "Y", js "", js "10", js "0", js "t"⟩])
          with modalCompleted := js "7" } =
      .ok { saveCourses App.fresh (coursesToJS [⟨js "X", js "Y", js "", js "10", js "0", js "t"⟩])
          with modalCompleted := js "7" } ∧
    confirmDelete
        { saveCourses App.fresh (coursesToJS [⟨js "X", js "Y", js "", js "10", js "0", js "t"⟩])
          with modalCompleted := js "7" } =
      .ok { saveCourses App.fresh (coursesToJS [⟨js "X", js "Y", js "", js "10", js "0", js "t"⟩])
          with modalCompleted := js "7" } :=
  confirm_without_active_index false _ rfl

end SkillList

